import Mathlib

/-!
Verification development for the chonkie-ts chunking engine.

Text is modelled as `List Char` (JS strings are sequences of UTF-16 units;
all inputs considered here stay in the BMP, where one unit is one char).
JS numbers appearing here are non-negative integers, modelled as `Nat`,
except where validation of negative inputs is itself the point, where `Int`
is used.  The tokenizer, the `RecursiveRules`/`RecursiveLevel` types, and
the `@chonkiejs/chunk` WASM primitives `split_offsets` / `merge_splits` are
not part of the sources; they are modelled from the specification and from
the declaration file `chunk.d.ts`, as marked on each definition.
-/

set_option autoImplicit false

abbrev Str := List Char

/-- Total length of a list of strings (used for offset bookkeeping). -/
def totalLen (l : List Str) : Nat := (l.map List.length).sum

/-- JS `Array.prototype.join(sep)`: pieces interleaved with a separator. -/
def joinSep (sep : Str) : List Str → Str
  | [] => []
  | [x] => x
  | x :: y :: rest => x ++ sep ++ joinSep sep (y :: rest)

/-- Fuel-driven core of JS `String.prototype.split` for a non-empty pattern:
splits at each leftmost, non-overlapping occurrence of `pat`.  With
`fuel = l.length` the fuel never runs out (each step consumes at least one
character). -/
def splitGo (pat : Str) : Nat → Str → List Str
  | 0, l => [l]
  | fuel + 1, l =>
    if pat.isPrefixOf l then
      [] :: splitGo pat fuel (l.drop pat.length)
    else
      match l with
      | [] => [[]]
      | a :: l' =>
        match splitGo pat fuel l' with
        | [] => [[a]]
        | x :: xs => (a :: x) :: xs

/-- JS `t.split(pat)`.  For the empty pattern JS splits between every
character. -/
def splitJS (pat : Str) (l : Str) : List Str :=
  if pat = [] then l.map (fun a => [a]) else splitGo pat l.length l

/-- Inclusion policy for delimiters (`includeDelim` in the sources):
attach to the previous fragment, to the next fragment, or drop. -/
inductive IncludeDelim where
  | prev
  | next
  | drop
deriving Repr, DecidableEq

/-- The short-fragment folding loop shared by `SentenceChunker._splitText`
and (per spec §4.1) the split primitive: fragments accumulate until the
accumulator reaches `minChars`, then are emitted; a trailing non-empty
accumulator is emitted.  Mirrors the `for (const s of splits)` loop. -/
def foldSentences (minChars : Nat) : Str → List Str → List Str
  | current, [] => if current = [] then [] else [current]
  | current, s :: rest =>
    if current = [] then
      foldSentences minChars s rest
    else if minChars ≤ current.length then
      current :: foldSentences minChars s rest
    else
      foldSentences minChars (current ++ s) rest

/-- A sentence record: `{ text, startIndex, endIndex, tokenCount }`. -/
structure Sentence where
  text : Str
  startIndex : Nat
  endIndex : Nat
  tokenCount : Nat
deriving Repr, DecidableEq, Inhabited

/-- A sentence chunk: base chunk fields plus the member sentences. -/
structure SentenceChunk where
  text : Str
  startIndex : Nat
  endIndex : Nat
  tokenCount : Nat
  sentences : List Sentence
deriving Repr, DecidableEq, Inhabited

/-- Validated `SentenceChunker` configuration (countTokens is passed
separately: the tokenizer is an external collaborator). -/
structure SCfg where
  chunkSize : Nat
  chunkOverlap : Nat
  minSentencesPerChunk : Nat
  minCharactersPerSentence : Nat
  delim : List Str
  includeDelim : IncludeDelim
deriving Repr

/-- The sentinel separator `this.sep = "✄"`. -/
def sepChar : Char := '✄'

/-- The ECMAScript whitespace set stripped by `String.prototype.trim`
(WhiteSpace ∪ LineTerminator): tab, LF, VT, FF, CR, space, NBSP, Ogham
space mark, the U+2000–U+200A spaces, LS, PS, narrow NBSP, medium
mathematical space, ideographic space and ZWNBSP. -/
def jsTrimChars : Str :=
  [ '\x09', '\x0a', '\x0b', '\x0c', '\x0d', ' ', ' ', ' '
  , ' ', ' ', ' ', ' ', ' ', ' ', ' '
  , ' ', ' ', ' ', ' ', ' ', ' ', ' '
  , ' ', '　', '﻿' ]

/-- Membership in the JS trim set: `text.trim()` is the empty string
exactly when every character satisfies this predicate. -/
def jsWhitespace (c : Char) : Bool := jsTrimChars.contains c

namespace SentenceChunker

/-- One delimiter pass of `_splitText`:
`t.split(c).join(c + sep)` / `t.split(c).join(sep + c)` / `t.split(c).join(sep)`. -/
def replaceStep (inc : IncludeDelim) (c : Str) (t : Str) : Str :=
  match inc with
  | .prev => joinSep (c ++ [sepChar]) (splitJS c t)
  | .next => joinSep ([sepChar] ++ c) (splitJS c t)
  | .drop => joinSep [sepChar] (splitJS c t)

/-- `_splitText`: sentinel insertion for each delimiter in turn, split on
the sentinel, then fold short fragments into sentences. -/
def splitText (cfg : SCfg) (text : Str) : List Str :=
  let t := cfg.delim.foldl (fun acc c => replaceStep cfg.includeDelim c acc) text
  foldSentences cfg.minCharactersPerSentence [] (splitJS [sepChar] t)

/-- Offset/token attachment loop of `_prepareSentences`: positions are a
running sum of fragment lengths and token counts come from the (batched)
tokenizer, modelled as a map of `countTokens`. -/
def attach (countTokens : Str → Nat) : Nat → List Str → List Sentence
  | _, [] => []
  | pos, s :: rest =>
    { text := s, startIndex := pos, endIndex := pos + s.length,
      tokenCount := countTokens s } :: attach countTokens (pos + s.length) rest

/-- `_prepareSentences`. -/
def prepareSentences (cfg : SCfg) (countTokens : Str → Nat) (text : Str) : List Sentence :=
  attach countTokens 0 (splitText cfg text)

/-- `_createChunk`: the chunk text is the direct concatenation of the
sentence texts and the token count is recomputed on the whole text. -/
def createChunk (countTokens : Str → Nat) (sentences : List Sentence) : SentenceChunk :=
  let chunkText := (sentences.map Sentence.text).flatten
  { text := chunkText,
    startIndex := ((sentences.head?).map Sentence.startIndex).getD 0,
    endIndex := ((sentences.getLast?).map Sentence.endIndex).getD 0,
    tokenCount := countTokens chunkText,
    sentences := sentences }

/-- Cumulative token sums `tokenSums` (length `N + 1`, starting at the
accumulator): mirrors the push-before-add loop plus the final push. -/
def tokenSumsFrom (acc : Nat) : List Sentence → List Nat
  | [] => [acc]
  | s :: rest => acc :: tokenSumsFrom (acc + s.tokenCount) rest

/-- `tokenSums` built from 0. -/
def tokenSums (sentences : List Sentence) : List Nat := tokenSumsFrom 0 sentences

/-- Fuel-driven `_bisectLeft` binary-search loop; `fuel = arr.length`
is enough since `hi - lo` shrinks every step. -/
def bisectGo (arr : List Nat) (value : Nat) : Nat → Nat → Nat → Nat
  | 0, lo, _ => lo
  | fuel + 1, lo, hi =>
    if lo < hi then
      let mid := (lo + hi) / 2
      if arr.getD mid 0 < value then bisectGo arr value fuel (mid + 1) hi
      else bisectGo arr value fuel lo mid
    else lo

/-- `_bisectLeft(arr, value, lo)`. -/
def bisectLeft (arr : List Nat) (value : Nat) (lo : Nat) : Nat :=
  bisectGo arr value arr.length lo arr.length

/-- The split-point selection of one `chunk` loop iteration, returning the
chosen `splitIdx` together with whether the minimum-sentences warning was
issued (`console.warn` modelled as a boolean diagnostic). -/
def splitIdxWarn (cfg : SCfg) (numSentences : Nat) (sums : List Nat) (pos : Nat) :
    Nat × Bool :=
  let targetTokens := sums.getD pos 0 + cfg.chunkSize
  let s1 := bisectLeft sums targetTokens pos - 1
  let s2 := min s1 numSentences
  let s3 := max s2 (pos + 1)
  if s3 - pos < cfg.minSentencesPerChunk then
    if pos + cfg.minSentencesPerChunk ≤ numSentences then
      (pos + cfg.minSentencesPerChunk, false)
    else
      (numSentences, true)
  else
    (s3, false)

/-- The backward overlap walk (`while (overlapIdx > pos && overlapTokens <
chunkOverlap)`), structurally recursive on `overlapIdx`. -/
def overlapWalk (chunkOverlap : Nat) (sentences : List Sentence) (pos : Nat) :
    Nat → Nat → Nat
  | _, 0 => 0
  | overlapTokens, overlapIdx + 1 =>
    if overlapIdx + 1 > pos ∧ overlapTokens < chunkOverlap then
      let sent := sentences.getD (overlapIdx + 1) default
      let nextTokens := overlapTokens + sent.tokenCount + 1
      if nextTokens > chunkOverlap then overlapIdx + 1
      else overlapWalk chunkOverlap sentences pos nextTokens overlapIdx
    else overlapIdx + 1

/-- The next cursor position after one loop iteration (`pos = overlapIdx + 1`
when the overlap walk runs, `pos = splitIdx` otherwise). -/
def nextPos (cfg : SCfg) (sentences : List Sentence) (sums : List Nat) (pos : Nat) : Nat :=
  let splitIdx := (splitIdxWarn cfg sentences.length sums pos).1
  if cfg.chunkOverlap > 0 ∧ splitIdx < sentences.length then
    overlapWalk cfg.chunkOverlap sentences pos 0 (splitIdx - 1) + 1
  else splitIdx

/-- The main `while (pos < sentences.length)` loop, fuel-driven
(`fuel = sentences.length` suffices because the cursor strictly increases).
Returns the chunks together with the warning diagnostic flag. -/
def chunkLoop (cfg : SCfg) (countTokens : Str → Nat) (sentences : List Sentence)
    (sums : List Nat) : Nat → Nat → List SentenceChunk × Bool
  | 0, _ => ([], false)
  | fuel + 1, pos =>
    if pos < sentences.length then
      let sw := splitIdxWarn cfg sentences.length sums pos
      let chunkSentences := (sentences.drop pos).take (sw.1 - pos)
      let c := createChunk countTokens chunkSentences
      let rest := chunkLoop cfg countTokens sentences sums fuel
        (nextPos cfg sentences sums pos)
      (c :: rest.1, sw.2 || rest.2)
    else ([], false)

/-- `chunk`, also reporting whether the minimum-sentences warning fired. -/
def chunkWithWarn (cfg : SCfg) (countTokens : Str → Nat) (text : Str) :
    List SentenceChunk × Bool :=
  if text.all jsWhitespace then ([], false)
  else
    let sentences := prepareSentences cfg countTokens text
    if sentences = [] then ([], false)
    else chunkLoop cfg countTokens sentences (tokenSums sentences) sentences.length 0

/-- `SentenceChunker.chunk`. -/
def chunk (cfg : SCfg) (countTokens : Str → Nat) (text : Str) : List SentenceChunk :=
  (chunkWithWarn cfg countTokens text).1

end SentenceChunker

/-- Modelled from the spec: the tokenizer adapter contract (§6) — an
external collaborator supplying `countTokens`, `encode` and (per-sequence)
`decodeBatch`, deterministic for a fixed model.  `decodeBatch` is the map
of a single-sequence `decode`. -/
structure Tokenizer where
  countTokens : Str → Nat
  encode : Str → List Nat
  decode : List Nat → Str

/-- Modelled from the spec: the default `'character'` tokenizer of the
core package — one token per character. -/
def charTok : Tokenizer where
  countTokens := fun s => s.length
  encode := fun s => s.map Char.toNat
  decode := fun l => l.map Char.ofNat

/-- Modelled from the spec: `RecursiveLevel` (§3) — exactly one mode per
level: whitespace split, delimiter set + inclusion policy, or the terminal
token window. -/
inductive RecLevel where
  | whitespace
  | delimiters (delims : List Str) (includeDelim : IncludeDelim)
  | token
deriving Repr, DecidableEq

/-- `RecursiveChunker` configuration (`rules` is the ordered
`RecursiveRules` hierarchy). -/
structure RCfg where
  chunkSize : Nat
  rules : List RecLevel
  minCharactersPerChunk : Nat
deriving Repr

/-- Chunk record `{ text, startIndex, endIndex, tokenCount }`. -/
structure Chunk where
  text : Str
  startIndex : Nat
  endIndex : Nat
  tokenCount : Nat
deriving Repr, DecidableEq, Inhabited

/-- Inclusion policy of the WASM `split_offsets` call
(`'prev' | 'next' | 'none'`). -/
inductive WasmInclude where
  | prev
  | next
  | drop
deriving Repr, DecidableEq

/-- Modelled from the spec: the raw splitting pass of `split_offsets` from
`@chonkiejs/chunk` (chunk.d.ts: "Split text at every delimiter occurrence";
delimiters are a character set).  A fragment boundary is placed at every
delimiter character, which is attached to the previous fragment, the next
fragment, or dropped per the inclusion policy; `acc` is the reversed
current fragment. -/
def rawSplitChars (D : List Char) (inc : WasmInclude) : Str → Str → List Str
  | acc, [] => [acc.reverse]
  | acc, c :: rest =>
    if c ∈ D then
      match inc with
      | .prev => (acc.reverse ++ [c]) :: rawSplitChars D inc [] rest
      | .next => acc.reverse :: rawSplitChars D inc [c] rest
      | .drop => acc.reverse :: rawSplitChars D inc [] rest
    else
      rawSplitChars D inc (c :: acc) rest

/-- Modelled from the spec: `split_offsets` (§4.1, §6) — raw split at every
delimiter character, then the short-fragment fold up to `minChars`. -/
def wasmSplit (D : List Char) (inc : WasmInclude) (minChars : Nat) (t : Str) : List Str :=
  foldSentences minChars [] (rawSplitChars D inc [] t)

/-- Modelled from the spec: the greedy grouping loop of `merge_splits` from
`@chonkiejs/chunk` (§4.4, §6, chunk.d.ts): consecutive counts are absorbed
while the running total (plus one per join when `combineWhitespace`) stays
within `chunkSize`; returns end indices and merged token counts.  `idx` is
the number of counts consumed so far, `acc` the running total of the open
group. -/
def wasmMergeAux (cap : Nat) (ws : Bool) : List Nat → Nat → Nat → List Nat × List Nat
  | [], idx, acc => ([idx], [acc])
  | c :: rest, idx, acc =>
    let joined := acc + c + (if ws then 1 else 0)
    if joined ≤ cap then wasmMergeAux cap ws rest (idx + 1) joined
    else
      let r := wasmMergeAux cap ws rest (idx + 1) c
      (idx :: r.1, acc :: r.2)

/-- Modelled from the spec: `merge_splits(tokenCounts, chunkSize,
combineWhitespace)`. -/
def wasmMergeSplits (tokenCounts : List Nat) (cap : Nat) (ws : Bool) :
    List Nat × List Nat :=
  match tokenCounts with
  | [] => ([], [])
  | c :: rest => wasmMergeAux cap ws rest 1 c

/-- The group slices `splits.slice(currentIndex, endIndex)` rebuilt from the
merge indices (the `for (let i = 0; i < result.indices.length; i++)` loop). -/
def groupSlices (splits : List Str) : Nat → List Nat → List (List Str)
  | _, [] => []
  | cur, e :: es => (splits.drop cur).take (e - cur) :: groupSlices splits e es

/-- The merged strings of `RecursiveChunker.mergeSplits`: each group joined
with a space (`combineWhitespace`) or directly. -/
def buildMerged (ws : Bool) (groups : List (List Str)) : List Str :=
  groups.map (fun g => if ws then joinSep [' '] g else g.flatten)

/-- The error cases reported by the chunkers and the merge primitive. -/
inductive ChunkerError where
  | chunkSizeNonpositive
  | chunkOverlapNegative
  | chunkOverlapTooLarge
  | minSentencesNonpositive
  | minCharactersNonpositive
  | delimMissing
  | includeDelimInvalid
  | mergeLengthMismatch
  | noRuleAtLevel
deriving Repr, DecidableEq

/-- `RecursiveChunker.mergeSplits` with its guards: empty inputs short-
circuit to empty output, mismatched lengths throw, all-oversized splits are
returned as-is, otherwise the WASM merge result is rebuilt into strings. -/
def mergeSplitsTS (cap : Nat) (splits : List Str) (tokenCounts : List Nat)
    (combineWhitespace : Bool) : Except ChunkerError (List Str × List Nat) :=
  if splits = [] ∨ tokenCounts = [] then .ok ([], [])
  else if splits.length ≠ tokenCounts.length then .error .mergeLengthMismatch
  else if tokenCounts.all (fun c => cap < c) then .ok (splits, tokenCounts)
  else
    let r := wasmMergeSplits tokenCounts cap combineWhitespace
    .ok (buildMerged combineWhitespace (groupSlices splits 0 r.1), r.2)

/-- The non-throwing body of `mergeSplitsTS` (its error branch is
unreachable from `recursiveChunk`, where the token counts are computed as a
map over the splits; see `mergeSplitsTS_eq_run`). -/
def mergeSplitsRun (cap : Nat) (splits : List Str) (tokenCounts : List Nat)
    (combineWhitespace : Bool) : List Str × List Nat :=
  if splits = [] ∨ tokenCounts = [] then ([], [])
  else if tokenCounts.all (fun c => cap < c) then (splits, tokenCounts)
  else
    let r := wasmMergeSplits tokenCounts cap combineWhitespace
    (buildMerged combineWhitespace (groupSlices splits 0 r.1), r.2)

namespace RecursiveChunker

/-- `estimateTokenCount`: the cheap length heuristic
`max(1, floor(length / 6.5))` (exactly `max 1 (2·len / 13)`), answering the
sentinel `chunkSize + 1` without consulting the tokenizer when the estimate
exceeds the budget, and the exact tokenizer count otherwise. -/
def estimateTokenCount (tok : Tokenizer) (chunkSize : Nat) (t : Str) : Nat :=
  let estimate := max 1 (2 * t.length / 13)
  if estimate > chunkSize then chunkSize + 1 else tok.countTokens t

/-- The token-window slicing loop (`for (let i = 0; i < encoded.length;
i += chunkSize)`), fuel-driven; `fuel = l.length` suffices for `k ≥ 1`. -/
def windowsGo (k : Nat) : Nat → List Nat → List (List Nat)
  | _, [] => []
  | 0, _ => []
  | fuel + 1, l => l.take k :: windowsGo k fuel (l.drop k)

/-- Fixed-size token windows. -/
def windows (k : Nat) (l : List Nat) : List (List Nat) :=
  windowsGo k l.length l

/-- `splitText`: whitespace mode splits on the space character dropping it;
delimiter mode flattens the level's delimiter strings into a character set
(the source joins them into one string for the WASM call); token mode
encodes, slices into `chunkSize` windows and decodes each window. -/
def splitText (tok : Tokenizer) (cfg : RCfg) (lvl : RecLevel) (t : Str) : List Str :=
  match lvl with
  | .whitespace => wasmSplit [' '] .drop 0 t
  | .delimiters ds inc =>
    let wInc : WasmInclude :=
      match inc with
      | .prev => .prev
      | .next => .next
      | .drop => .drop
    wasmSplit ds.flatten wInc cfg.minCharactersPerChunk t
  | .token => (windows cfg.chunkSize (tok.encode t)).map tok.decode

/-- `makeChunk(text, tokenCount, startOffset)`. -/
def makeChunk (text : Str) (tokenCount : Nat) (startOffset : Nat) : Chunk :=
  { text := text, startIndex := startOffset,
    endIndex := startOffset + text.length, tokenCount := tokenCount }

/-- The space-prefix pass of the whitespace level
(`merged.slice(0,1).concat(merged.slice(1).map(t => ' ' + t))`). -/
def wsPrefixSpaces : List Str → List Str
  | [] => []
  | x :: xs => x :: xs.map (fun s => ' ' :: s)

/-- The per-level merge dispatch of `recursiveChunk`: token levels are not
merged, whitespace levels merge with spaces and then prefix a space to every
merged piece but the first, delimiter levels merge directly. -/
def mergeByRule (cap : Nat) (rule : RecLevel) (splits : List Str)
    (tokenCounts : List Nat) : List Str × List Nat :=
  match rule with
  | .token => (splits, tokenCounts)
  | .whitespace =>
    let r := mergeSplitsRun cap splits tokenCounts true
    (wsPrefixSpaces r.1, r.2)
  | .delimiters _ _ => mergeSplitsRun cap splits tokenCounts false

/-- The emission loop over merged pieces: oversized pieces are handed to
`rec` (the next recursion level), the rest become leaf chunks; the running
offset advances by each piece's length. -/
def emitPieces (cap : Nat) (rec : Str → Nat → List Chunk) :
    List (Str × Nat) → Nat → List Chunk
  | [], _ => []
  | (s, tc) :: rest, off =>
    (if tc > cap then rec s off else [makeChunk s tc off]) ++
      emitPieces cap rec rest (off + s.length)

/-- `recursiveChunk(text, level, startOffset)`, fuel-driven: a fuel of
`rules.length + 1 - level` is always sufficient (see the termination
theorem), since every recursive call increases the level and levels at or
beyond the rule depth are a base case. -/
def recursiveChunkFuel (tok : Tokenizer) (cfg : RCfg) :
    Nat → Str → Nat → Nat → List Chunk
  | 0, _, _, _ => []
  | fuel + 1, text, level, startOffset =>
    if text = [] then []
    else if h : cfg.rules.length ≤ level then
      [makeChunk text (estimateTokenCount tok cfg.chunkSize text) startOffset]
    else
      let currRule := cfg.rules.get ⟨level, by omega⟩
      let splits := splitText tok cfg currRule text
      let tokenCounts := splits.map (estimateTokenCount tok cfg.chunkSize)
      let m := mergeByRule cfg.chunkSize currRule splits tokenCounts
      emitPieces cfg.chunkSize
        (fun s off => recursiveChunkFuel tok cfg fuel s (level + 1) off)
        (m.1.zip m.2) startOffset

/-- `RecursiveChunker.chunk(text)` = `recursiveChunk(text, 0, 0)`. -/
def chunk (tok : Tokenizer) (cfg : RCfg) (text : Str) : List Chunk :=
  recursiveChunkFuel tok cfg (cfg.rules.length + 1) text 0 0

end RecursiveChunker

/-- Paragraph delimiter of the default rules. -/
def dPara1 : Str := "\n\n".toList
/-- Paragraph delimiter of the default rules. -/
def dPara2 : Str := "\r\n".toList
/-- Paragraph delimiter of the default rules. -/
def dPara3 : Str := "\n".toList
/-- Sentence delimiter of the default rules. -/
def dSent1 : Str := ". ".toList
/-- Sentence delimiter of the default rules. -/
def dSent2 : Str := "! ".toList
/-- Sentence delimiter of the default rules. -/
def dSent3 : Str := "? ".toList
/-- Pause delimiter of the default rules. -/
def dPunc1 : Str := "; ".toList
/-- Pause delimiter of the default rules. -/
def dPunc2 : Str := ": ".toList
/-- Pause delimiter of the default rules. -/
def dPunc3 : Str := ", ".toList

/-- Modelled from the spec: the default `RecursiveRules` hierarchy
("paragraphs → sentences → punctuation → words → characters", terminal
token window), with the default delimiters attached to the previous
fragment. -/
def defaultRules : List RecLevel :=
  [ .delimiters [dPara1, dPara2, dPara3] .prev
  , .delimiters [dSent1, dSent2, dSent3] .prev
  , .delimiters [dPunc1, dPunc2, dPunc3] .prev
  , .whitespace
  , .token ]

/-- The raw (pre-validation) constructor arguments of `SentenceChunker`:
numbers may be negative, `delim` may be `null`/`undefined` (`none`) and
`includeDelim` may hold an arbitrary runtime value (`bad`). -/
inductive RawInclude where
  | prev
  | next
  | null
  | bad
deriving Repr, DecidableEq

/-- `SentenceChunker`'s private constructor validation, in source order;
`.ok` returns the constructed (fully valid) configuration. -/
def SentenceChunker.validate (chunkSize chunkOverlap minSentencesPerChunk
    minCharactersPerSentence : Int) (delim : Option (List Str))
    (includeDelim : RawInclude) : Except ChunkerError SCfg :=
  if chunkSize ≤ 0 then .error .chunkSizeNonpositive
  else if chunkOverlap < 0 then .error .chunkOverlapNegative
  else if chunkOverlap ≥ chunkSize then .error .chunkOverlapTooLarge
  else if minSentencesPerChunk ≤ 0 then .error .minSentencesNonpositive
  else if minCharactersPerSentence ≤ 0 then .error .minCharactersNonpositive
  else
    match delim with
    | none => .error .delimMissing
    | some ds =>
      match includeDelim with
      | .bad => .error .includeDelimInvalid
      | .prev => .ok ⟨chunkSize.toNat, chunkOverlap.toNat, minSentencesPerChunk.toNat,
          minCharactersPerSentence.toNat, ds, .prev⟩
      | .next => .ok ⟨chunkSize.toNat, chunkOverlap.toNat, minSentencesPerChunk.toNat,
          minCharactersPerSentence.toNat, ds, .next⟩
      | .null => .ok ⟨chunkSize.toNat, chunkOverlap.toNat, minSentencesPerChunk.toNat,
          minCharactersPerSentence.toNat, ds, .drop⟩

/-- `RecursiveChunker`'s private constructor validation. -/
def RecursiveChunker.validate (chunkSize minCharactersPerChunk : Int)
    (rules : List RecLevel) : Except ChunkerError RCfg :=
  if chunkSize ≤ 0 then .error .chunkSizeNonpositive
  else if minCharactersPerChunk ≤ 0 then .error .minCharactersNonpositive
  else .ok ⟨chunkSize.toNat, rules, minCharactersPerChunk.toNat⟩

/-! ### Concrete instances used in the theorems below -/

/-- A period delimiter. -/
def dotDelim : Str := ".".toList

/-- Sentence-chunker configuration with `chunkSize = 7`, no overlap,
`minSentencesPerChunk = 1`, `minCharactersPerSentence = 1`. -/
def cfgC2 : SCfg := ⟨7, 0, 1, 1, [dotDelim], .prev⟩

/-- Input that splits into the four sentences
`"aaa." "bbbb." "ccccc." "dd"`. -/
def textC2 : Str := "aaa.bbbb.ccccc.dd".toList

/-- The four sentences of `textC2`. -/
def sC2a : Str := "aaa.".toList
/-- Second sentence of `textC2`. -/
def sC2b : Str := "bbbb.".toList
/-- Third sentence of `textC2`. -/
def sC2c : Str := "ccccc.".toList
/-- Fourth sentence of `textC2`. -/
def sC2d : Str := "dd".toList

/-- A deterministic tokenizer count assigning `[3,4,5,2]` to the four
sentences of `textC2` (anything else counts its characters). -/
def tokC2 (s : Str) : Nat :=
  if s = sC2a then 3 else if s = sC2b then 4
  else if s = sC2c then 5 else if s = sC2d then 2 else s.length

/-- Recursive configuration with `chunkSize = 1` and a single
period-delimiter level (no token-window level). -/
def rcfgC10 : RCfg := ⟨1, [.delimiters [dotDelim] .prev], 1⟩

/-- A 20-character run with no delimiter occurrence. -/
def textC10 : Str := List.replicate 20 'a'

/-- A two-character string used in merge-mismatch instances. -/
def abStr : Str := "ab".toList

/-- The default recursive configuration (`chunkSize = 512`,
`minCharactersPerChunk = 24`, default rules). -/
def rcfgDef : RCfg := ⟨512, defaultRules, 24⟩

/-- A whitespace-only input of three spaces. -/
def spaces3 : Str := "   ".toList

/-- Sentence-chunker configuration demanding `minSentencesPerChunk = 5`
(more than `textC2` provides). -/
def cfgC5 : SCfg := ⟨7, 0, 5, 1, [dotDelim], .prev⟩

/-- Sentence-chunker configuration with `minSentencesPerChunk = 2`. -/
def cfg3a : SCfg := ⟨7, 0, 2, 1, [dotDelim], .prev⟩

/-- Two five-character sentences (`"aaaa." "bbbb."`). -/
def text3a : Str := "aaaa.bbbb.".toList

/-- Sentence-chunker configuration with `minSentencesPerChunk = 1`. -/
def cfg3b : SCfg := ⟨7, 0, 1, 1, [dotDelim], .prev⟩

/-- First sentence of the non-additive-tokenizer instance. -/
def s3b1 : Str := "ab.".toList

/-- Second sentence of the non-additive-tokenizer instance. -/
def s3b2 : Str := "cd.".toList

/-- The concatenation of `s3b1` and `s3b2`. -/
def s3bBoth : Str := "ab.cd.".toList

/-- A non-additive tokenizer count: the two sentences count 2 each but
their concatenation counts 100. -/
def tok3b (s : Str) : Nat :=
  if s = s3b1 then 2 else if s = s3b2 then 2 else if s = s3bBoth then 100 else s.length

/-- Configuration with `chunkSize = 3` and a single oversized sentence. -/
def cfgC3w : SCfg := ⟨3, 0, 1, 5, [dotDelim], .prev⟩

/-- A single eight-character sentence. -/
def textC3w : Str := "aaaaaaa.".toList

/-- Sentence-chunker configuration with `chunkOverlap = 4`. -/
def cfgC4o : SCfg := ⟨7, 4, 1, 1, [dotDelim], .prev⟩

/-- Three three-character sentences (`"aa." "bb." "cc."`). -/
def textC4 : Str := "aa.bb.cc.".toList

/-- Recursive configuration with `chunkSize = 5` over the default rules. -/
def rcfgW6 : RCfg := ⟨5, defaultRules, 2⟩

/-- A short two-sentence input for the recursive pipeline. -/
def textW6 : Str := "Hello world this is a test. And more words here!".toList

/-! ### Theorems -/

/-- Claim C2 is false on the code: with sentence token counts `[3,4,5,2]`,
`chunkSize = 7`, `minSentencesPerChunk = 1` and no overlap, the chunker
produces four chunks, not three — the binary-search boundary
(`bisectLeft − 1`) excludes the sentence whose prefix sum exactly equals
the budget, so the first chunk is `[sentence 0]` alone. -/
theorem c2_counterexample :
    ((SentenceChunker.prepareSentences cfgC2 tokC2 textC2).map
        Sentence.tokenCount = [3, 4, 5, 2]) ∧
    (SentenceChunker.chunk cfgC2 tokC2 textC2).length = 4 ∧
    ¬ (SentenceChunker.chunk cfgC2 tokC2 textC2).length = 3 := by
  refine ⟨by decide, by decide, by decide⟩

/-- Claim C2 amended: on token counts `[3,4,5,2]` with `chunkSize = 7`,
the chunker returns four chunks, one per sentence, with token counts
`[3,4,5,2]` — the split boundary stays strictly below the budget when a
prefix sum hits it exactly. -/
theorem c2_amended :
    (SentenceChunker.chunk cfgC2 tokC2 textC2).map
        (fun c => (c.sentences.map Sentence.text, c.tokenCount)) =
      [([sC2a], 3), ([sC2b], 4), ([sC2c], 5), ([sC2d], 2)] := by
  decide

/-- Claim C10: the token estimate is the sentinel `chunkSize + 1`,
independent of the tokenizer, whenever `max 1 (floor (length / 6.5))`
(= `max 1 (2·length / 13)`) exceeds `chunkSize`; it is the exact tokenizer
count otherwise; and at the base level an oversized undividable segment is
emitted as a leaf reporting `chunkSize + 1`. -/
theorem c10_estimate_sentinel :
    (∀ (tok : Tokenizer) (chunkSize : Nat) (t : Str),
        max 1 (2 * t.length / 13) > chunkSize →
        RecursiveChunker.estimateTokenCount tok chunkSize t = chunkSize + 1) ∧
    (∀ (tok tok' : Tokenizer) (chunkSize : Nat) (t : Str),
        max 1 (2 * t.length / 13) > chunkSize →
        RecursiveChunker.estimateTokenCount tok chunkSize t =
          RecursiveChunker.estimateTokenCount tok' chunkSize t) ∧
    (∀ (tok : Tokenizer) (chunkSize : Nat) (t : Str),
        max 1 (2 * t.length / 13) ≤ chunkSize →
        RecursiveChunker.estimateTokenCount tok chunkSize t = tok.countTokens t) ∧
    ((RecursiveChunker.chunk charTok rcfgC10 textC10).map Chunk.tokenCount =
      [rcfgC10.chunkSize + 1]) := by
  refine ⟨?_, ?_, ?_, by decide⟩
  · intro tok chunkSize t h
    simp [RecursiveChunker.estimateTokenCount, h]
  · intro tok tok' chunkSize t h
    simp [RecursiveChunker.estimateTokenCount, h]
  · intro tok chunkSize t h
    simp [RecursiveChunker.estimateTokenCount, Nat.not_lt.2 h]

/-- Witness for C10 at `chunkSize = 1` and a 20-character segment. -/
theorem c10_estimate_sentinel_witness :
    max 1 (2 * textC10.length / 13) > 1 ∧
    RecursiveChunker.estimateTokenCount charTok 1 textC10 = 1 + 1 :=
  ⟨by decide, c10_estimate_sentinel.1 charTok 1 textC10 (by decide)⟩

/-- Claim C8 is false on the code in two places: an empty-but-present
delimiter list passes validation (`!delim` is false for `[]`), and the
merge primitive silently returns empty output — not an error — when one of
two mismatched-length inputs is empty. -/
theorem c8_counterexample :
    (SentenceChunker.validate 512 0 1 12 (some []) .prev).isOk = true ∧
    mergeSplitsTS 5 [] [1, 2] false = .ok ([], []) := by
  refine ⟨by rfl, by rfl⟩

/-- Claim C8 amended: construction fails fast for each invalid numeric
bound, a missing (null) delimiter set and an out-of-range inclusion
policy, and an otherwise-valid configuration is accepted even with an
empty delimiter list; the merge primitive rejects mismatched lengths
exactly when both inputs are non-empty, and short-circuits to empty output
when either is empty; the recursive constructor rejects its two bounds. -/
theorem c8_validation_amended :
    (∀ (cs co ms mc : Int) (d : Option (List Str)) (inc : RawInclude),
        cs ≤ 0 →
        SentenceChunker.validate cs co ms mc d inc = .error .chunkSizeNonpositive) ∧
    (∀ (cs co ms mc : Int) (d : Option (List Str)) (inc : RawInclude),
        0 < cs → co < 0 →
        SentenceChunker.validate cs co ms mc d inc = .error .chunkOverlapNegative) ∧
    (∀ (cs co ms mc : Int) (d : Option (List Str)) (inc : RawInclude),
        0 < cs → 0 ≤ co → cs ≤ co →
        SentenceChunker.validate cs co ms mc d inc = .error .chunkOverlapTooLarge) ∧
    (∀ (cs co ms mc : Int) (d : Option (List Str)) (inc : RawInclude),
        0 < cs → 0 ≤ co → co < cs → ms ≤ 0 →
        SentenceChunker.validate cs co ms mc d inc = .error .minSentencesNonpositive) ∧
    (∀ (cs co ms mc : Int) (d : Option (List Str)) (inc : RawInclude),
        0 < cs → 0 ≤ co → co < cs → 0 < ms → mc ≤ 0 →
        SentenceChunker.validate cs co ms mc d inc = .error .minCharactersNonpositive) ∧
    (∀ (cs co ms mc : Int) (inc : RawInclude),
        0 < cs → 0 ≤ co → co < cs → 0 < ms → 0 < mc →
        SentenceChunker.validate cs co ms mc none inc = .error .delimMissing) ∧
    (∀ (cs co ms mc : Int) (ds : List Str),
        0 < cs → 0 ≤ co → co < cs → 0 < ms → 0 < mc →
        SentenceChunker.validate cs co ms mc (some ds) .bad =
          .error .includeDelimInvalid) ∧
    (∀ (cs co ms mc : Int) (ds : List Str),
        0 < cs → 0 ≤ co → co < cs → 0 < ms → 0 < mc →
        SentenceChunker.validate cs co ms mc (some ds) .prev =
          .ok ⟨cs.toNat, co.toNat, ms.toNat, mc.toNat, ds, .prev⟩) ∧
    (∀ (cap : Nat) (splits : List Str) (tokenCounts : List Nat) (ws : Bool),
        splits ≠ [] → tokenCounts ≠ [] → splits.length ≠ tokenCounts.length →
        mergeSplitsTS cap splits tokenCounts ws = .error .mergeLengthMismatch) ∧
    (∀ (cap : Nat) (tokenCounts : List Nat) (ws : Bool),
        mergeSplitsTS cap [] tokenCounts ws = .ok ([], [])) ∧
    (∀ (cs mc : Int) (rules : List RecLevel),
        cs ≤ 0 → RecursiveChunker.validate cs mc rules = .error .chunkSizeNonpositive) ∧
    (∀ (cs mc : Int) (rules : List RecLevel),
        0 < cs → mc ≤ 0 →
        RecursiveChunker.validate cs mc rules = .error .minCharactersNonpositive) := by
  refine ⟨?_, ?_, ?_, ?_, ?_, ?_, ?_, ?_, ?_, ?_, ?_, ?_⟩
  · intro cs co ms mc d inc h
    simp [SentenceChunker.validate, h]
  · intro cs co ms mc d inc h1 h2
    simp [SentenceChunker.validate, h2, show ¬ cs ≤ 0 by omega]
  · intro cs co ms mc d inc h1 h2 h3
    simp [SentenceChunker.validate, h3, show ¬ cs ≤ 0 by omega, show ¬ co < 0 by omega]
  · intro cs co ms mc d inc h1 h2 h3 h4
    simp [SentenceChunker.validate, h4, show ¬ cs ≤ 0 by omega, show ¬ co < 0 by omega,
      show ¬ cs ≤ co by omega]
  · intro cs co ms mc d inc h1 h2 h3 h4 h5
    simp [SentenceChunker.validate, h5, show ¬ cs ≤ 0 by omega, show ¬ co < 0 by omega,
      show ¬ cs ≤ co by omega, show ¬ ms ≤ 0 by omega]
  · intro cs co ms mc inc h1 h2 h3 h4 h5
    simp [SentenceChunker.validate, show ¬ cs ≤ 0 by omega, show ¬ co < 0 by omega,
      show ¬ cs ≤ co by omega, show ¬ ms ≤ 0 by omega, show ¬ mc ≤ 0 by omega]
  · intro cs co ms mc ds h1 h2 h3 h4 h5
    simp [SentenceChunker.validate, show ¬ cs ≤ 0 by omega, show ¬ co < 0 by omega,
      show ¬ cs ≤ co by omega, show ¬ ms ≤ 0 by omega, show ¬ mc ≤ 0 by omega]
  · intro cs co ms mc ds h1 h2 h3 h4 h5
    simp [SentenceChunker.validate, show ¬ cs ≤ 0 by omega, show ¬ co < 0 by omega,
      show ¬ cs ≤ co by omega, show ¬ ms ≤ 0 by omega, show ¬ mc ≤ 0 by omega]
  · intro cap splits tokenCounts ws h1 h2 h3
    simp [mergeSplitsTS, h1, h2, h3]
  · intro cap tokenCounts ws
    simp [mergeSplitsTS]
  · intro cs mc rules h
    simp [RecursiveChunker.validate, h]
  · intro cs mc rules h1 h2
    simp [RecursiveChunker.validate, h2, show ¬ cs ≤ 0 by omega]

/-- Witness for the amended C8 at concrete inputs. -/
theorem c8_validation_amended_witness :
    ((-3 : Int) ≤ 0 ∧
      SentenceChunker.validate (-3) 0 1 12 (some [dotDelim]) .prev =
        .error .chunkSizeNonpositive) ∧
    ([abStr] ≠ ([] : List Str) ∧ [1, 2] ≠ ([] : List Nat) ∧
      ([abStr] : List Str).length ≠ ([1, 2] : List Nat).length ∧
      mergeSplitsTS 5 [abStr] [1, 2] false = .error .mergeLengthMismatch) :=
  ⟨⟨by decide, c8_validation_amended.1 (-3) 0 1 12 (some [dotDelim]) .prev (by decide)⟩,
   ⟨by decide, by decide, by decide,
     (c8_validation_amended.2.2.2.2.2.2.2.2.1) 5 [abStr] [1, 2] false
       (by decide) (by decide) (by decide)⟩⟩

/-- Claim C7 is false on the code for the recursive pipeline: it has no
trim guard, so chunking the three-space string returns one chunk (holding
the spaces), not an empty sequence. -/
theorem c7_counterexample :
    (RecursiveChunker.chunk charTok rcfgDef spaces3).length = 1 ∧
    RecursiveChunker.chunk charTok rcfgDef spaces3 ≠ [] := by
  refine ⟨by decide, by decide⟩

/-- Claim C7 amended: both pipelines return an empty sequence on the empty
string; the sentence pipeline (which trims) also returns an empty sequence
on the whitespace-only string, but the recursive pipeline returns a single
chunk whose text is the whitespace itself. -/
theorem c7_amended :
    (∀ (tok : Tokenizer) (cfg : RCfg), RecursiveChunker.chunk tok cfg [] = []) ∧
    (∀ (ct : Str → Nat) (cfg : SCfg), SentenceChunker.chunk cfg ct [] = []) ∧
    (∀ (ct : Str → Nat) (cfg : SCfg), SentenceChunker.chunk cfg ct spaces3 = []) ∧
    ((RecursiveChunker.chunk charTok rcfgDef spaces3).map Chunk.text = [spaces3]) := by
  refine ⟨?_, ?_, ?_, by decide⟩
  · intro tok cfg
    simp [RecursiveChunker.chunk, RecursiveChunker.recursiveChunkFuel]
  · intro ct cfg
    simp [SentenceChunker.chunk, SentenceChunker.chunkWithWarn]
  · intro ct cfg
    simp [SentenceChunker.chunk, SentenceChunker.chunkWithWarn,
      show spaces3.all jsWhitespace = true by decide]

namespace SentenceChunker

theorem overlapWalk_ge (co : Nat) (sentences : List Sentence) (pos : Nat) :
    ∀ (idx toks : Nat), pos ≤ idx → pos ≤ overlapWalk co sentences pos toks idx := by
  intro idx
  induction idx with
  | zero => intro toks h; simpa [overlapWalk] using h
  | succ n ih =>
    intro toks h
    rw [overlapWalk]
    dsimp only
    split
    next hg =>
      split
      next => exact h
      next => exact ih _ (by omega)
    next => exact h

theorem splitIdxWarn_bounds (cfg : SCfg) (N : Nat) (sums : List Nat) (pos : Nat)
    (h : pos < N) :
    pos < (splitIdxWarn cfg N sums pos).1 ∧ (splitIdxWarn cfg N sums pos).1 ≤ N := by
  unfold splitIdxWarn
  simp only [Nat.max_def, Nat.min_def]
  split_ifs <;> refine ⟨by omega, by omega⟩

theorem nextPos_gt (cfg : SCfg) (sentences : List Sentence) (sums : List Nat)
    (pos : Nat) (h : pos < sentences.length) :
    pos < nextPos cfg sentences sums pos := by
  have hb := splitIdxWarn_bounds cfg sentences.length sums pos h
  rw [nextPos]
  split
  next hov =>
    have hw := overlapWalk_ge cfg.chunkOverlap sentences pos
      ((splitIdxWarn cfg sentences.length sums pos).1 - 1) 0 (by omega)
    omega
  next hov => exact hb.1

end SentenceChunker

namespace RecursiveChunker

theorem emitPieces_congr (cap : Nat) (r1 r2 : Str → Nat → List Chunk)
    (h : ∀ s off, r1 s off = r2 s off) :
    ∀ (l : List (Str × Nat)) (off : Nat),
      emitPieces cap r1 l off = emitPieces cap r2 l off := by
  intro l
  induction l with
  | nil => intro off; rfl
  | cons p rest ih =>
    intro off
    rw [emitPieces, emitPieces, h, ih]

theorem recursiveChunkFuel_congr (tok : Tokenizer) (cfg : RCfg) :
    ∀ (f1 f2 level : Nat) (text : Str) (off : Nat),
      cfg.rules.length + 1 - level ≤ f1 → 1 ≤ f1 →
      cfg.rules.length + 1 - level ≤ f2 → 1 ≤ f2 →
      recursiveChunkFuel tok cfg f1 text level off =
        recursiveChunkFuel tok cfg f2 text level off := by
  intro f1
  induction f1 with
  | zero => intro f2 level text off _ h1; omega
  | succ f1 ih =>
    intro f2 level text off ha1 h1 ha2 h2
    obtain ⟨f2', rfl⟩ : ∃ f2', f2 = f2' + 1 := ⟨f2 - 1, by omega⟩
    rw [recursiveChunkFuel, recursiveChunkFuel]
    by_cases ht : text = []
    · simp [ht]
    · simp only [ht, if_false]
      by_cases hl : cfg.rules.length ≤ level
      · simp [hl]
      · simp only [hl, dite_false]
        apply emitPieces_congr
        intro s off'
        exact ih f2' (level + 1) s off' (by omega) (by omega) (by omega) (by omega)

end RecursiveChunker

/-- Claim C9: both pipelines terminate.  For the sentence loop the cursor
strictly increases on every iteration with `pos < N` (the overlap walk
never moves the next start back to or before the current position), so the
loop reaches `pos ≥ N`; for `recursiveChunk`, any fuel of at least
`rules.length + 1` computes the same result as the canonical run (each
recursive call increases the level), and every level at or beyond the rule
depth is a base case emitting at most one leaf. -/
theorem c9_termination :
    (∀ (cfg : SCfg) (sentences : List Sentence) (sums : List Nat) (pos : Nat),
        pos < sentences.length →
        pos < SentenceChunker.nextPos cfg sentences sums pos) ∧
    (∀ (tok : Tokenizer) (cfg : RCfg) (fuel : Nat) (text : Str) (off : Nat),
        cfg.rules.length + 1 ≤ fuel →
        RecursiveChunker.recursiveChunkFuel tok cfg fuel text 0 off =
          RecursiveChunker.recursiveChunkFuel tok cfg (cfg.rules.length + 1) text 0 off) ∧
    (∀ (tok : Tokenizer) (cfg : RCfg) (fuel : Nat) (text : Str) (level off : Nat),
        cfg.rules.length ≤ level →
        RecursiveChunker.recursiveChunkFuel tok cfg (fuel + 1) text level off =
          if text = [] then []
          else [RecursiveChunker.makeChunk text
            (RecursiveChunker.estimateTokenCount tok cfg.chunkSize text) off]) := by
  refine ⟨SentenceChunker.nextPos_gt, ?_, ?_⟩
  · intro tok cfg fuel text off h
    exact RecursiveChunker.recursiveChunkFuel_congr tok cfg fuel (cfg.rules.length + 1)
      0 text off (by omega) (by omega) (by omega) (by omega)
  · intro tok cfg fuel text level off h
    rw [RecursiveChunker.recursiveChunkFuel]
    by_cases ht : text = []
    · simp [ht]
    · simp [ht, h]

/-- Witness for C9 at a concrete state: one sentence of three tokens,
cursor 0, and the default recursive configuration with ample fuel. -/
theorem c9_termination_witness :
    (0 < (SentenceChunker.prepareSentences cfgC2 tokC2 textC2).length ∧
      0 < SentenceChunker.nextPos cfgC2
        (SentenceChunker.prepareSentences cfgC2 tokC2 textC2)
        (SentenceChunker.tokenSums (SentenceChunker.prepareSentences cfgC2 tokC2 textC2)) 0) ∧
    (rcfgDef.rules.length + 1 ≤ 9 ∧
      RecursiveChunker.recursiveChunkFuel charTok rcfgDef 9 spaces3 0 0 =
        RecursiveChunker.recursiveChunkFuel charTok rcfgDef
          (rcfgDef.rules.length + 1) spaces3 0 0) ∧
    (rcfgDef.rules.length ≤ 5 ∧
      RecursiveChunker.recursiveChunkFuel charTok rcfgDef (3 + 1) spaces3 5 7 =
        if spaces3 = [] then []
        else [RecursiveChunker.makeChunk spaces3
          (RecursiveChunker.estimateTokenCount charTok rcfgDef.chunkSize spaces3) 7]) :=
  ⟨⟨by decide, c9_termination.1 cfgC2 (SentenceChunker.prepareSentences cfgC2 tokC2 textC2)
      (SentenceChunker.tokenSums (SentenceChunker.prepareSentences cfgC2 tokC2 textC2)) 0
      (by decide)⟩,
   ⟨by decide, c9_termination.2.1 charTok rcfgDef 9 spaces3 0 (by decide)⟩,
   ⟨by decide, c9_termination.2.2 charTok rcfgDef 3 spaces3 5 7 (by decide)⟩⟩

namespace SentenceChunker

theorem chunkLoop_at_end (cfg : SCfg) (ct : Str → Nat) (sentences : List Sentence)
    (sums : List Nat) (fuel pos : Nat) (h : ¬ pos < sentences.length) :
    chunkLoop cfg ct sentences sums fuel pos = ([], false) := by
  cases fuel with
  | zero => rfl
  | succ fuel => rw [chunkLoop]; simp [h]

theorem splitIdxWarn_dichotomy (cfg : SCfg) (N : Nat) (sums : List Nat) (pos : Nat) :
    cfg.minSentencesPerChunk ≤ (splitIdxWarn cfg N sums pos).1 - pos ∨
      ((splitIdxWarn cfg N sums pos).1 = N ∧ (splitIdxWarn cfg N sums pos).2 = true) := by
  unfold splitIdxWarn
  simp only [Nat.max_def, Nat.min_def]
  split_ifs <;> dsimp only <;> first | (left; omega) | (right; exact ⟨rfl, rfl⟩)

theorem nextPos_of_eq_length (cfg : SCfg) (sentences : List Sentence) (sums : List Nat)
    (pos : Nat) (h : (splitIdxWarn cfg sentences.length sums pos).1 = sentences.length) :
    nextPos cfg sentences sums pos = sentences.length := by
  rw [nextPos]
  split
  next hov => omega
  next => exact h

theorem getLast?_cons_of_ne_nil {α : Type} (a : α) (l : List α) (h : l ≠ []) :
    (a :: l).getLast? = l.getLast? := by
  cases l with
  | nil => exact absurd rfl h
  | cons b l' => rfl

theorem chunkLoop_invariant (cfg : SCfg) (ct : Str → Nat) (sentences : List Sentence)
    (sums : List Nat) :
    ∀ (fuel pos : Nat),
      (∀ c ∈ (chunkLoop cfg ct sentences sums fuel pos).1.dropLast,
          cfg.minSentencesPerChunk ≤ c.sentences.length) ∧
      (∀ lc, (chunkLoop cfg ct sentences sums fuel pos).1.getLast? = some lc →
          lc.sentences.length < cfg.minSentencesPerChunk →
          (chunkLoop cfg ct sentences sums fuel pos).2 = true ∧
          ∃ p, p < sentences.length ∧ lc.sentences = sentences.drop p) := by
  intro fuel
  induction fuel with
  | zero => intro pos; exact ⟨by simp [chunkLoop], by simp [chunkLoop]⟩
  | succ fuel ih =>
    intro pos
    by_cases hp : pos < sentences.length
    · have hb := splitIdxWarn_bounds cfg sentences.length sums pos hp
      have hdi := splitIdxWarn_dichotomy cfg sentences.length sums pos
      rw [chunkLoop]
      simp only [hp, if_true]
      set sw := splitIdxWarn cfg sentences.length sums pos with hsw
      set rest := chunkLoop cfg ct sentences sums fuel (nextPos cfg sentences sums pos)
        with hrest
      have hcs : (createChunk ct ((sentences.drop pos).take (sw.1 - pos))).sentences =
          (sentences.drop pos).take (sw.1 - pos) := rfl
      have hlen : ((sentences.drop pos).take (sw.1 - pos)).length = sw.1 - pos := by
        simp [List.length_take, List.length_drop]
        omega
      by_cases hr : rest.1 = []
      · constructor
        · intro c hc
          simp [hr] at hc
        · intro lc hlc hsmall
          rw [hr] at hlc
          simp at hlc
          subst hlc
          rw [hcs, hlen] at hsmall
          rcases hdi with hge | ⟨hN, hw⟩
          · omega
          · refine ⟨by simp [hw], pos, hp, ?_⟩
            rw [hcs, hN]
            exact List.take_of_length_le (by simp [List.length_drop])
      · constructor
        · intro c hc
          rw [List.dropLast_cons_of_ne_nil hr] at hc
          rcases List.mem_cons.1 hc with rfl | hc'
          · rw [hcs, hlen]
            rcases hdi with hge | ⟨hN, _⟩
            · exact hge
            · exfalso
              apply hr
              have := chunkLoop_at_end cfg ct sentences sums fuel sentences.length
                (by omega)
              rw [hrest, nextPos_of_eq_length cfg sentences sums pos hN, this]
          · exact (ih _).1 c hc'
        · intro lc hlc hsmall
          rw [getLast?_cons_of_ne_nil _ _ hr] at hlc
          obtain ⟨hw, hex⟩ := (ih _).2 lc hlc hsmall
          refine ⟨?_, hex⟩
          have hw' : rest.2 = true := by rw [hrest]; exact hw
          simp [hw']
    · rw [chunkLoop_at_end cfg ct sentences sums _ pos hp]
      exact ⟨by simp, by simp⟩

end SentenceChunker

/-- Claim C5: every chunk except possibly the last holds at least
`minSentencesPerChunk` sentences; when the final chunk cannot reach the
minimum, the warning diagnostic fires and the final chunk still carries
all remaining sentences (a suffix of the sentence list) — no failure. -/
theorem c5_min_sentences :
    ∀ (cfg : SCfg) (ct : Str → Nat) (text : Str),
      (∀ c ∈ (SentenceChunker.chunk cfg ct text).dropLast,
          cfg.minSentencesPerChunk ≤ c.sentences.length) ∧
      (∀ lc, (SentenceChunker.chunk cfg ct text).getLast? = some lc →
          lc.sentences.length < cfg.minSentencesPerChunk →
          (SentenceChunker.chunkWithWarn cfg ct text).2 = true ∧
          ∃ p, p < (SentenceChunker.prepareSentences cfg ct text).length ∧
            lc.sentences = (SentenceChunker.prepareSentences cfg ct text).drop p) := by
  intro cfg ct text
  unfold SentenceChunker.chunk SentenceChunker.chunkWithWarn
  by_cases hws : text.all jsWhitespace
  · simp [hws]
  · simp only [hws, if_false]
    by_cases hs : SentenceChunker.prepareSentences cfg ct text = []
    · simp [hs]
    · simp only [hs, if_false]
      exact SentenceChunker.chunkLoop_invariant cfg ct
        (SentenceChunker.prepareSentences cfg ct text)
        (SentenceChunker.tokenSums (SentenceChunker.prepareSentences cfg ct text))
        (SentenceChunker.prepareSentences cfg ct text).length 0

/-- Witness for C5: `minSentencesPerChunk = 5` against four sentences —
the warning fires and the single (final) chunk carries all sentences. -/
theorem c5_min_sentences_witness :
    (SentenceChunker.chunkWithWarn cfgC5 tokC2 textC2).2 = true ∧
    ∃ p, p < (SentenceChunker.prepareSentences cfgC5 tokC2 textC2).length ∧
      ((SentenceChunker.chunk cfgC5 tokC2 textC2).getLast?.getD default).sentences =
        (SentenceChunker.prepareSentences cfgC5 tokC2 textC2).drop p :=
  (c5_min_sentences cfgC5 tokC2 textC2).2 _ (by decide) (by decide)

namespace SentenceChunker

theorem tokenSumsFrom_length (l : List Sentence) :
    ∀ acc, (tokenSumsFrom acc l).length = l.length + 1 := by
  induction l with
  | nil => intro acc; rfl
  | cons s rest ih => intro acc; simp [tokenSumsFrom, ih]

theorem tokenSumsFrom_getD (l : List Sentence) :
    ∀ (acc i : Nat), i ≤ l.length →
      (tokenSumsFrom acc l).getD i 0 =
        acc + ((l.take i).map Sentence.tokenCount).sum := by
  induction l with
  | nil =>
    intro acc i h
    have : i = 0 := by simpa using h
    subst this
    simp [tokenSumsFrom]
  | cons s rest ih =>
    intro acc i h
    cases i with
    | zero => simp [tokenSumsFrom]
    | succ i =>
      simp only [tokenSumsFrom, List.getD_cons_succ, List.take_succ_cons, List.map_cons,
        List.sum_cons]
      rw [ih (acc + s.tokenCount) i (by simpa using h)]
      omega

theorem tokenSums_getD_mono (sentences : List Sentence) (i j : Nat)
    (hij : i ≤ j) (hj : j ≤ sentences.length) :
    (tokenSums sentences).getD i 0 ≤ (tokenSums sentences).getD j 0 := by
  rw [tokenSums, tokenSumsFrom_getD sentences 0 i (by omega),
    tokenSumsFrom_getD sentences 0 j hj]
  have : sentences.take j = sentences.take i ++ (sentences.drop i).take (j - i) := by
    have := List.take_add sentences i (j - i)
    rwa [show i + (j - i) = j by omega] at this
  rw [this]
  simp

theorem bisectGo_spec (arr : List Nat) (value : Nat)
    (hmono : ∀ i j, i ≤ j → j < arr.length → arr.getD i 0 ≤ arr.getD j 0) :
    ∀ (fuel lo hi : Nat), hi - lo ≤ fuel → lo ≤ hi → hi ≤ arr.length →
      lo ≤ bisectGo arr value fuel lo hi ∧
      bisectGo arr value fuel lo hi ≤ hi ∧
      ∀ k, lo ≤ k → k < bisectGo arr value fuel lo hi → arr.getD k 0 < value := by
  intro fuel
  induction fuel with
  | zero =>
    intro lo hi hf hlh hha
    have : bisectGo arr value 0 lo hi = lo := rfl
    rw [this]
    exact ⟨le_refl lo, by omega, fun k hk1 hk2 => absurd hk2 (by omega)⟩
  | succ fuel ih =>
    intro lo hi hf hlh hha
    rw [bisectGo]
    by_cases hlt : lo < hi
    · simp only [hlt, if_true]
      by_cases hm : arr.getD ((lo + hi) / 2) 0 < value
      · simp only [hm, if_true]
        obtain ⟨h1, h2, h3⟩ := ih ((lo + hi) / 2 + 1) hi (by omega) (by omega) hha
        refine ⟨by omega, h2, ?_⟩
        intro k hk1 hk2
        by_cases hkm : (lo + hi) / 2 + 1 ≤ k
        · exact h3 k hkm hk2
        · calc arr.getD k 0 ≤ arr.getD ((lo + hi) / 2) 0 :=
                hmono k ((lo + hi) / 2) (by omega) (by omega)
            _ < value := hm
      · simp only [hm, if_false]
        obtain ⟨h1, h2, h3⟩ := ih lo ((lo + hi) / 2) (by omega) (by omega) (by omega)
        exact ⟨h1, by omega, h3⟩
    · simp only [hlt, if_false]
      exact ⟨le_refl lo, by omega, fun k hk1 hk2 => absurd hk2 (by omega)⟩

theorem bisectLeft_spec (arr : List Nat) (value lo : Nat)
    (hmono : ∀ i j, i ≤ j → j < arr.length → arr.getD i 0 ≤ arr.getD j 0)
    (hlo : lo ≤ arr.length) :
    lo ≤ bisectLeft arr value lo ∧ bisectLeft arr value lo ≤ arr.length ∧
      ∀ k, lo ≤ k → k < bisectLeft arr value lo → arr.getD k 0 < value :=
  bisectGo_spec arr value hmono arr.length lo arr.length (by omega) hlo (le_refl _)

end SentenceChunker

namespace SentenceChunker

theorem splitIdxWarn_sum_lt (cfg : SCfg) (N : Nat) (sums : List Nat) (pos : Nat)
    (hms : cfg.minSentencesPerChunk = 1)
    (hmono : ∀ i j, i ≤ j → j < sums.length → sums.getD i 0 ≤ sums.getD j 0)
    (hlen : pos ≤ sums.length)
    (h2 : pos + 2 ≤ (splitIdxWarn cfg N sums pos).1) :
    sums.getD (splitIdxWarn cfg N sums pos).1 0 < sums.getD pos 0 + cfg.chunkSize := by
  have hb := bisectLeft_spec sums (sums.getD pos 0 + cfg.chunkSize) pos hmono hlen
  unfold splitIdxWarn at h2 ⊢
  simp only [hms, Nat.max_def, Nat.min_def] at h2 ⊢
  split_ifs at h2 ⊢ <;> dsimp only at h2 ⊢ <;>
    first
    | omega
    | exact hb.2.2 _ (by omega) (by omega)

theorem attach_mem (ct : Str → Nat) :
    ∀ (l : List Str) (p : Nat) (s : Sentence), s ∈ attach ct p l →
      s.tokenCount = ct s.text := by
  intro l
  induction l with
  | nil => intro p s h; simp [attach] at h
  | cons x rest ih =>
    intro p s h
    rw [attach] at h
    rcases List.mem_cons.1 h with rfl | h'
    · rfl
    · exact ih _ s h'

theorem chunkLoop_mem (cfg : SCfg) (ct : Str → Nat) (sentences : List Sentence)
    (sums : List Nat) :
    ∀ (fuel pos : Nat) (c : SentenceChunk),
      c ∈ (chunkLoop cfg ct sentences sums fuel pos).1 →
      ∃ p, p < sentences.length ∧
        c = createChunk ct ((sentences.drop p).take
          ((splitIdxWarn cfg sentences.length sums p).1 - p)) := by
  intro fuel
  induction fuel with
  | zero => intro pos c h; simp [chunkLoop] at h
  | succ fuel ih =>
    intro pos c h
    by_cases hp : pos < sentences.length
    · rw [chunkLoop] at h
      simp only [hp, if_true] at h
      rcases List.mem_cons.1 h with rfl | h'
      · exact ⟨pos, hp, rfl⟩
      · exact ih _ c h'
    · rw [chunkLoop_at_end cfg ct sentences sums _ pos hp] at h
      simp at h

end SentenceChunker

theorem countTokens_flatten (ct : Str → Nat) (hadd : ∀ a b, ct (a ++ b) = ct a + ct b) :
    ∀ l : List Str, ct l.flatten = (l.map ct).sum := by
  have h0 : ct [] = 0 := by have := hadd [] []; simpa using this
  intro l
  induction l with
  | nil => simpa using h0
  | cons x rest ih => simp [List.flatten_cons, hadd, ih]

/-- Claim C3 amended: under an additive tokenizer (`countTokens (a ++ b) =
countTokens a + countTokens b`) and `minSentencesPerChunk = 1`, every chunk
whose `tokenCount` exceeds `chunkSize` contains exactly one sentence, and
every sentence of such a chunk itself exceeds `chunkSize` (multi-sentence
chunks never exceed the budget). -/
theorem c3_atomicity_amended (cfg : SCfg) (ct : Str → Nat) (text : Str)
    (hms : cfg.minSentencesPerChunk = 1)
    (hadd : ∀ a b, ct (a ++ b) = ct a + ct b) :
    ∀ c ∈ SentenceChunker.chunk cfg ct text,
      cfg.chunkSize < c.tokenCount →
      c.sentences.length = 1 ∧ ∀ s ∈ c.sentences, cfg.chunkSize < s.tokenCount := by
  intro c hc hbig
  unfold SentenceChunker.chunk SentenceChunker.chunkWithWarn at hc
  by_cases hws : text.all jsWhitespace
  · simp [hws] at hc
  · simp only [hws, if_false] at hc
    by_cases hnil : SentenceChunker.prepareSentences cfg ct text = []
    · simp [hnil] at hc
    · simp only [hnil, if_false] at hc
      set sentences := SentenceChunker.prepareSentences cfg ct text with hsent
      set sums := SentenceChunker.tokenSums sentences with hsums
      obtain ⟨p, hp, rfl⟩ := SentenceChunker.chunkLoop_mem cfg ct sentences sums
        sentences.length 0 c hc
      have hb := SentenceChunker.splitIdxWarn_bounds cfg sentences.length sums p hp
      set k := (SentenceChunker.splitIdxWarn cfg sentences.length sums p).1 with hk
      set slice := (sentences.drop p).take (k - p) with hslice
      have hslen : slice.length = k - p := by
        rw [hslice]
        simp [List.length_take, List.length_drop]
        omega
      have hmem : ∀ s ∈ slice, s ∈ sentences := by
        intro s hs
        exact List.mem_of_mem_drop (List.mem_of_mem_take hs)
      have htc : ∀ s ∈ slice, s.tokenCount = ct s.text := by
        intro s hs
        have : s ∈ sentences := hmem s hs
        rw [hsent] at this
        exact SentenceChunker.attach_mem ct _ 0 s this
      have hchunktc : (SentenceChunker.createChunk ct slice).tokenCount =
          (slice.map Sentence.tokenCount).sum := by
        show ct ((slice.map Sentence.text).flatten) = (slice.map Sentence.tokenCount).sum
        rw [countTokens_flatten ct hadd]
        rw [List.map_map]
        refine congrArg List.sum (List.map_congr_left ?_)
        intro s hs
        exact (htc s hs).symm
      rcases Nat.lt_or_ge (k - p) 2 with hsmall | hbig2
      · -- exactly one sentence
        have h1 : slice.length = 1 := by omega
        obtain ⟨s, hs⟩ := List.length_eq_one.1 h1
        have hsmem : s ∈ slice := by rw [hs]; exact List.mem_singleton_self s
        refine ⟨h1, ?_⟩
        intro s' hs'
        have hs'' : s' ∈ slice := hs'
        have : s' = s := by
          rw [hs] at hs''
          simpa using hs''
        subst this
        have : (SentenceChunker.createChunk ct slice).tokenCount = s'.tokenCount := by
          rw [hchunktc, hs]
          simp
        omega
      · -- at least two sentences: the prefix-sum bound is violated
        exfalso
        have hNlen : sums.length = sentences.length + 1 := by
          rw [hsums, SentenceChunker.tokenSums]
          exact SentenceChunker.tokenSumsFrom_length sentences 0
        have hmono : ∀ i j, i ≤ j → j < sums.length → sums.getD i 0 ≤ sums.getD j 0 := by
          intro i j hij hj
          rw [hsums]
          exact SentenceChunker.tokenSums_getD_mono sentences i j hij (by omega)
        have hlt := SentenceChunker.splitIdxWarn_sum_lt cfg sentences.length sums p hms
          hmono (by omega) (by omega)
        rw [← hk] at hlt
        have hgp : sums.getD p 0 = ((sentences.take p).map Sentence.tokenCount).sum := by
          rw [hsums, SentenceChunker.tokenSums]
          simpa using SentenceChunker.tokenSumsFrom_getD sentences 0 p (by omega)
        have hgk : sums.getD k 0 = ((sentences.take k).map Sentence.tokenCount).sum := by
          rw [hsums, SentenceChunker.tokenSums]
          simpa using SentenceChunker.tokenSumsFrom_getD sentences 0 k (by omega)
        have hsplit : ((sentences.take k).map Sentence.tokenCount).sum =
            ((sentences.take p).map Sentence.tokenCount).sum +
              (slice.map Sentence.tokenCount).sum := by
          have h1 : sentences.take k = sentences.take p ++ slice := by
            rw [hslice]
            have := List.take_add sentences p (k - p)
            rwa [show p + (k - p) = k by omega] at this
          rw [h1]
          simp
        rw [hgp, hgk, hsplit] at hlt
        omega

/-- Claim C3 is false on the code in two independent ways: with
`minSentencesPerChunk = 2` (a valid configuration) a forced two-sentence
chunk exceeds the budget even under an additive (character) tokenizer; and
with `minSentencesPerChunk = 1` a non-additive tokenizer makes a
two-sentence chunk re-tokenize above the budget although neither sentence
alone exceeds it. -/
theorem c3_counterexample :
    (∃ c ∈ SentenceChunker.chunk cfg3a List.length text3a,
        cfg3a.chunkSize < c.tokenCount ∧ c.sentences.length ≠ 1) ∧
    (∃ c ∈ SentenceChunker.chunk cfg3b tok3b s3bBoth,
        cfg3b.chunkSize < c.tokenCount ∧ c.sentences.length ≠ 1 ∧
        ∀ s ∈ c.sentences, s.tokenCount ≤ cfg3b.chunkSize) := by
  refine ⟨by decide, by decide⟩

/-- Witness for the amended C3: a single oversized sentence yields a chunk
above the budget with exactly one sentence. -/
theorem c3_amended_witness :
    cfgC3w.chunkSize <
      ((SentenceChunker.chunk cfgC3w List.length textC3w).getD 0 default).tokenCount ∧
    ((SentenceChunker.chunk cfgC3w List.length textC3w).getD 0 default).sentences.length = 1 :=
  ⟨by decide,
    (c3_atomicity_amended cfgC3w List.length textC3w (by decide)
      (fun a b => List.length_append a b) _ (by decide) (by decide)).1⟩

theorem splitGo_succ (pat : Str) (fuel : Nat) (l : Str) :
    splitGo pat (fuel + 1) l =
      if pat.isPrefixOf l then
        [] :: splitGo pat fuel (l.drop pat.length)
      else
        match l with
        | [] => [[]]
        | a :: l' =>
          match splitGo pat fuel l' with
          | [] => [[a]]
          | x :: xs => (a :: x) :: xs := by
  rw [splitGo.eq_def]

theorem splitGo_ne_nil (pat : Str) (fuel : Nat) (l : Str) : splitGo pat fuel l ≠ [] := by
  cases fuel with
  | zero => simp [splitGo]
  | succ fuel =>
    rw [splitGo_succ]
    by_cases hpre : pat.isPrefixOf l
    · rw [if_pos hpre]; simp
    · rw [if_neg hpre]
      cases l with
      | nil => simp
      | cons a l' =>
        cases h : splitGo pat fuel l' with
        | nil => simp [h]
        | cons x xs => simp [h]

theorem joinSep_cons_head (sep : Str) (a : Char) (x : Str) (xs : List Str) :
    joinSep sep ((a :: x) :: xs) = a :: joinSep sep (x :: xs) := by
  cases xs with
  | nil => rfl
  | cons y ys => simp [joinSep]

theorem joinSep_splitGo (pat : Str) (hpat : pat ≠ []) :
    ∀ (fuel : Nat) (l : Str), l.length ≤ fuel →
      joinSep pat (splitGo pat fuel l) = l := by
  intro fuel
  induction fuel with
  | zero => intro l h; rfl
  | succ fuel ih =>
    intro l h
    rw [splitGo_succ]
    by_cases hpre : pat.isPrefixOf l
    · rw [if_pos hpre]
      obtain ⟨t, rfl⟩ := List.isPrefixOf_iff_prefix.1 hpre
      have hdrop : (pat ++ t).drop pat.length = t := List.drop_left pat t
      rw [hdrop]
      have hp1 : 1 ≤ pat.length := by
        cases pat with
        | nil => exact absurd rfl hpat
        | cons c cs => simp
      have hlt : t.length ≤ fuel := by
        simp [List.length_append] at h
        omega
      have hjoin := ih t hlt
      cases hsp : splitGo pat fuel t with
      | nil => exact absurd hsp (splitGo_ne_nil pat fuel t)
      | cons x xs =>
        rw [hsp] at hjoin
        rw [joinSep, hjoin]
        simp
    · rw [if_neg hpre]
      cases l with
      | nil => rfl
      | cons a l' =>
        show joinSep pat
            (match splitGo pat fuel l' with
             | [] => [[a]]
             | x :: xs => (a :: x) :: xs) = a :: l'
        have hjoin := ih l' (by simpa using Nat.le_of_succ_le_succ h)
        cases hsp : splitGo pat fuel l' with
        | nil => exact absurd hsp (splitGo_ne_nil pat fuel l')
        | cons x xs =>
          rw [hsp] at hjoin
          show joinSep pat ((a :: x) :: xs) = a :: l'
          rw [joinSep_cons_head, hjoin]

theorem joinSep_splitJS (pat : Str) (hpat : pat ≠ []) (l : Str) :
    joinSep pat (splitJS pat l) = l := by
  rw [splitJS, if_neg hpat]
  exact joinSep_splitGo pat hpat l.length l (le_refl _)

theorem filter_joinSep (p : Char → Bool) (sep : Str) :
    ∀ xs : List Str,
      (joinSep sep xs).filter p =
        joinSep (sep.filter p) (xs.map (List.filter p)) := by
  intro xs
  induction xs with
  | nil => rfl
  | cons x xs ih =>
    cases xs with
    | nil => rfl
    | cons y ys =>
      simp only [joinSep, List.map_cons, List.filter_append]
      rw [show (joinSep sep (y :: ys)).filter p =
        joinSep (sep.filter p) ((y :: ys).map (List.filter p)) from ih]
      rfl

theorem joinSep_nil_sep (xs : List Str) : joinSep [] xs = xs.flatten := by
  induction xs with
  | nil => rfl
  | cons x xs ih =>
    cases xs with
    | nil => simp [joinSep]
    | cons y ys => simp only [joinSep] at ih ⊢; simp [ih]

theorem splitGo_single_not_mem (c : Char) :
    ∀ (fuel : Nat) (l : Str), l.length ≤ fuel →
      ∀ piece ∈ splitGo [c] fuel l, c ∉ piece := by
  intro fuel
  induction fuel with
  | zero =>
    intro l h piece hp
    have : l = [] := by
      cases l with
      | nil => rfl
      | cons a l' => simp at h
    subst this
    have : piece = [] := by simpa [splitGo] using hp
    simp [this]
  | succ fuel ih =>
    intro l h piece hp
    rw [splitGo_succ] at hp
    by_cases hpre : List.isPrefixOf [c] l
    · rw [if_pos hpre] at hp
      rcases List.mem_cons.1 hp with rfl | hp'
      · simp
      · obtain ⟨t, rfl⟩ := List.isPrefixOf_iff_prefix.1 hpre
        refine ih (([c] ++ t).drop 1) ?_ piece ?_
        · simp at h ⊢; omega
        · simpa using hp'
    · rw [if_neg hpre] at hp
      cases l with
      | nil =>
        have : piece = [] := by simpa using hp
        simp [this]
      | cons a l' =>
        have hac : a ≠ c := by
          intro hac
          subst hac
          simp [List.isPrefixOf] at hpre
        have hlen : l'.length ≤ fuel := by simpa using Nat.le_of_succ_le_succ h
        have hp2 : piece ∈
            (match splitGo [c] fuel l' with
             | [] => [[a]]
             | x :: xs => (a :: x) :: xs) := hp
        cases hsp : splitGo [c] fuel l' with
        | nil => exact absurd hsp (splitGo_ne_nil [c] fuel l')
        | cons x xs =>
          rw [hsp] at hp2
          have hp3 : piece ∈ (a :: x) :: xs := hp2
          rcases List.mem_cons.1 hp3 with rfl | hp'
          · intro hmem
            rcases List.mem_cons.1 hmem with rfl | hmem'
            · exact hac rfl
            · exact ih l' hlen x
                (by rw [hsp]; exact List.mem_cons_self x xs) hmem'
          · exact ih l' hlen piece
              (by rw [hsp]; exact List.mem_cons_of_mem x hp')

theorem filter_ne_of_not_mem (c : Char) (l : Str) (h : c ∉ l) :
    l.filter (fun a => a != c) = l := by
  refine List.filter_eq_self.2 ?_
  intro a ha
  simp only [bne_iff_ne, ne_eq]
  intro rfl'
  exact h (rfl' ▸ ha)

theorem filter_singletons (p : Char → Bool) :
    ∀ t : Str, ((t.map (fun a => [a])).map (List.filter p)).flatten = t.filter p := by
  intro t
  induction t with
  | nil => rfl
  | cons a u ih =>
    simp only [List.map_cons, List.flatten_cons, ih, List.filter_cons]
    by_cases h : p a
    · simp [h]
    · simp [h]

theorem replaceStep_filter (c t : Str) :
    (SentenceChunker.replaceStep .prev c t).filter (fun a => a != sepChar) =
      t.filter (fun a => a != sepChar) := by
  have hsepc : ([sepChar].filter fun a => a != sepChar) = ([] : Str) := by simp
  by_cases hc : c = []
  · subst hc
    show (joinSep ([] ++ [sepChar]) (splitJS [] t)).filter (fun a => a != sepChar) = _
    rw [splitJS, if_pos rfl, List.nil_append, filter_joinSep, hsepc, joinSep_nil_sep]
    exact filter_singletons _ t
  · show (joinSep (c ++ [sepChar]) (splitJS c t)).filter (fun a => a != sepChar) = _
    have hsep1 : ((c ++ [sepChar]).filter fun a => a != sepChar) =
        c.filter (fun a => a != sepChar) := by
      rw [List.filter_append, hsepc, List.append_nil]
    rw [filter_joinSep, hsep1]
    conv_rhs => rw [← joinSep_splitJS c hc t, filter_joinSep]

theorem foldDelims_filter (delims : List Str) :
    ∀ t : Str,
      (delims.foldl (fun acc c => SentenceChunker.replaceStep .prev c acc) t).filter
          (fun a => a != sepChar) =
        t.filter (fun a => a != sepChar) := by
  induction delims with
  | nil => intro t; rfl
  | cons d rest ih =>
    intro t
    rw [List.foldl_cons, ih, replaceStep_filter]

theorem foldSentences_flatten (m : Nat) :
    ∀ (frags : List Str) (cur : Str),
      (foldSentences m cur frags).flatten = cur ++ frags.flatten := by
  intro frags
  induction frags with
  | nil =>
    intro cur
    by_cases h : cur = []
    · simp [foldSentences, h]
    · simp [foldSentences, h]
  | cons s rest ih =>
    intro cur
    rw [foldSentences]
    by_cases h1 : cur = []
    · simp only [h1, if_true]
      rw [ih s]
      simp
    · simp only [h1, if_false]
      by_cases h2 : m ≤ cur.length
      · simp only [h2, if_true]
        simp only [List.flatten_cons]
        rw [ih s]
      · simp only [h2, if_false]
        rw [ih (cur ++ s)]
        simp

theorem splitText_flatten (cfg : SCfg) (text : Str)
    (hprev : cfg.includeDelim = .prev)
    (hsep : sepChar ∉ text) :
    (SentenceChunker.splitText cfg text).flatten = text := by
  rw [SentenceChunker.splitText]
  rw [hprev]
  rw [foldSentences_flatten]
  set tF := cfg.delim.foldl
    (fun acc c => SentenceChunker.replaceStep .prev c acc) text with htF
  have hpieces : ∀ piece ∈ splitJS [sepChar] tF, sepChar ∉ piece := by
    intro piece hp
    rw [splitJS, if_neg (by simp)] at hp
    exact splitGo_single_not_mem sepChar tF.length tF (le_refl _) piece hp
  have hmapid :
      (splitJS [sepChar] tF).map (List.filter (fun a => a != sepChar)) =
        splitJS [sepChar] tF := by
    refine List.map_congr_left ?_ |>.trans (List.map_id _)
    intro piece hp
    exact filter_ne_of_not_mem sepChar piece (hpieces piece hp)
  have hchain : tF.filter (fun a => a != sepChar) = (splitJS [sepChar] tF).flatten := by
    conv_lhs => rw [← joinSep_splitJS [sepChar] (by simp) tF]
    rw [filter_joinSep]
    rw [hmapid]
    rw [show ([sepChar].filter fun a => a != sepChar) = [] by simp]
    exact joinSep_nil_sep _
  have hinv : tF.filter (fun a => a != sepChar) = text := by
    rw [htF, foldDelims_filter cfg.delim text]
    exact filter_ne_of_not_mem sepChar text hsep
  rw [← hchain, hinv]
  simp

namespace SentenceChunker

theorem attach_map_text (ct : Str → Nat) :
    ∀ (l : List Str) (p : Nat), (attach ct p l).map Sentence.text = l := by
  intro l
  induction l with
  | nil => intro p; rfl
  | cons s rest ih => intro p; simp [attach, ih]

theorem nextPos_no_overlap (cfg : SCfg) (sentences : List Sentence) (sums : List Nat)
    (pos : Nat) (hov : cfg.chunkOverlap = 0) :
    nextPos cfg sentences sums pos = (splitIdxWarn cfg sentences.length sums pos).1 := by
  rw [nextPos]
  rw [if_neg]
  simp [hov]

theorem chunkLoop_flatten (cfg : SCfg) (ct : Str → Nat) (sentences : List Sentence)
    (sums : List Nat) (hov : cfg.chunkOverlap = 0) :
    ∀ (fuel pos : Nat), sentences.length - pos ≤ fuel →
      (((chunkLoop cfg ct sentences sums fuel pos).1.map SentenceChunk.text)).flatten =
        ((sentences.drop pos).map Sentence.text).flatten := by
  intro fuel
  induction fuel with
  | zero =>
    intro pos h
    have hnp : ¬ pos < sentences.length := by omega
    rw [chunkLoop_at_end cfg ct sentences sums 0 pos hnp]
    rw [List.drop_eq_nil_of_le (by omega)]
    rfl
  | succ fuel ih =>
    intro pos h
    by_cases hp : pos < sentences.length
    · have hb := splitIdxWarn_bounds cfg sentences.length sums pos hp
      rw [chunkLoop]
      simp only [hp, if_true]
      set k := (splitIdxWarn cfg sentences.length sums pos).1 with hk
      set slice := (sentences.drop pos).take (k - pos) with hslice
      have hctext : (createChunk ct slice).text = (slice.map Sentence.text).flatten := rfl
      simp only [List.map_cons, List.flatten_cons]
      rw [hctext]
      rw [nextPos_no_overlap cfg sentences sums pos hov, ← hk]
      rw [ih k (by omega)]
      have hsplitdrop : sentences.drop pos = slice ++ sentences.drop k := by
        rw [hslice]
        conv_lhs => rw [← List.take_append_drop (k - pos) (sentences.drop pos)]
        rw [List.drop_drop]
        rw [show pos + (k - pos) = k by omega]
      conv_rhs => rw [hsplitdrop]
      simp
    · rw [chunkLoop_at_end cfg ct sentences sums _ pos hp]
      rw [List.drop_eq_nil_of_le (by omega)]
      rfl

end SentenceChunker

/-- Claim C4 amended: with inclusion policy `prev`, `chunkOverlap = 0` and
sentinel-free input, the concatenation of all chunk texts reproduces the
input exactly — for every delimiter list — provided the input is not
whitespace-only in the JS `trim()` sense (which the chunker maps to no
chunks). -/
theorem c4_reconstruction_amended (cfg : SCfg) (ct : Str → Nat) (text : Str)
    (hprev : cfg.includeDelim = .prev)
    (hov : cfg.chunkOverlap = 0)
    (hsep : sepChar ∉ text)
    (hws : ¬ text.all jsWhitespace) :
    ((SentenceChunker.chunk cfg ct text).map SentenceChunk.text).flatten = text := by
  unfold SentenceChunker.chunk SentenceChunker.chunkWithWarn
  simp only [hws, if_false]
  have htext : (SentenceChunker.prepareSentences cfg ct text).map Sentence.text =
      SentenceChunker.splitText cfg text := by
    rw [SentenceChunker.prepareSentences]
    exact SentenceChunker.attach_map_text ct _ 0
  have hflat : ((SentenceChunker.prepareSentences cfg ct text).map Sentence.text).flatten
      = text := by
    rw [htext]
    exact splitText_flatten cfg text hprev hsep
  by_cases hnil : SentenceChunker.prepareSentences cfg ct text = []
  · exfalso
    rw [hnil] at hflat
    simp at hflat
    subst hflat
    simp at hws
  · simp only [hnil, if_false]
    have hloop := SentenceChunker.chunkLoop_flatten cfg ct
      (SentenceChunker.prepareSentences cfg ct text)
      (SentenceChunker.tokenSums (SentenceChunker.prepareSentences cfg ct text)) hov
      (SentenceChunker.prepareSentences cfg ct text).length 0 (by omega)
    rw [List.drop_zero] at hloop
    exact hloop.trans hflat

/-- Claim C4 is false on the code in two ways: a whitespace-only input
(no sentinel, policy `prev`) yields no chunks, so the concatenation is
empty rather than the input; and with `chunkOverlap > 0` the overlapped
sentences are duplicated in consecutive chunks, so the concatenation
repeats text. -/
theorem c4_counterexample :
    ((SentenceChunker.chunk cfg3b List.length spaces3).map SentenceChunk.text).flatten ≠
      spaces3 ∧
    ((SentenceChunker.chunk cfgC4o List.length textC4).map SentenceChunk.text).flatten ≠
      textC4 := by
  refine ⟨by decide, by decide⟩

/-- Witness for the amended C4 at a concrete four-sentence input. -/
theorem c4_amended_witness :
    ((SentenceChunker.chunk cfgC2 List.length textC2).map SentenceChunk.text).flatten =
      textC2 :=
  c4_reconstruction_amended cfgC2 List.length textC2 rfl rfl (by decide) (by decide)

theorem totalLen_cons (a : Str) (l : List Str) : totalLen (a :: l) = a.length + totalLen l := by
  simp [totalLen]

theorem totalLen_eq_length_flatten (l : List Str) : totalLen l = l.flatten.length := by
  induction l with
  | nil => rfl
  | cons a l ih => simp [totalLen_cons, ih]

theorem foldSentences_mem_ne_nil (m : Nat) :
    ∀ (frags : List Str) (cur : Str), ∀ s ∈ foldSentences m cur frags, s ≠ [] := by
  intro frags
  induction frags with
  | nil =>
    intro cur s hs
    rw [foldSentences] at hs
    by_cases h : cur = []
    · simp [h] at hs
    · simp only [h, if_false] at hs
      simp at hs
      subst hs
      exact h
  | cons x rest ih =>
    intro cur s hs
    rw [foldSentences] at hs
    by_cases h1 : cur = []
    · rw [if_pos h1] at hs
      exact ih x s hs
    · rw [if_neg h1] at hs
      by_cases h2 : m ≤ cur.length
      · rw [if_pos h2] at hs
        rcases List.mem_cons.1 hs with rfl | hs'
        · exact h1
        · exact ih x s hs'
      · rw [if_neg h2] at hs
        exact ih (cur ++ x) s hs

theorem foldSentences_length_le (m : Nat) :
    ∀ (frags : List Str) (cur : Str),
      (foldSentences m cur frags).length ≤
        (if cur = [] then 0 else 1) + frags.length := by
  intro frags
  induction frags with
  | nil =>
    intro cur
    rw [foldSentences]
    by_cases h : cur = []
    · simp [h]
    · simp [h]
  | cons x rest ih =>
    intro cur
    rw [foldSentences]
    by_cases h1 : cur = []
    · rw [if_pos h1]
      have := ih x
      by_cases hx : x = [] <;> simp [hx] at this ⊢ <;> omega
    · rw [if_neg h1]
      by_cases h2 : m ≤ cur.length
      · rw [if_pos h2]
        have := ih x
        by_cases hx : x = [] <;> simp [h1, hx] at this ⊢ <;> omega
      · rw [if_neg h2]
        have := ih (cur ++ x)
        have hcx : ¬ (cur ++ x) = [] := by simp [h1]
        simp [h1, hcx] at this ⊢
        omega

namespace RecursiveChunker

theorem windowsGo_flatten (k : Nat) (hk : 1 ≤ k) :
    ∀ (fuel : Nat) (l : List Nat), l.length ≤ fuel →
      (windowsGo k fuel l).flatten = l := by
  intro fuel
  induction fuel with
  | zero =>
    intro l h
    have : l = [] := List.length_eq_zero.1 (by omega)
    subst this
    rfl
  | succ fuel ih =>
    intro l h
    cases l with
    | nil => rfl
    | cons a l' =>
      show (List.take k (a :: l') :: windowsGo k fuel ((a :: l').drop k)).flatten = a :: l'
      simp only [List.flatten_cons]
      rw [ih ((a :: l').drop k)
        (by simp only [List.length_drop, List.length_cons] at h ⊢; omega)]
      exact List.take_append_drop k (a :: l')

theorem windows_flatten (k : Nat) (hk : 1 ≤ k) (l : List Nat) :
    (windows k l).flatten = l :=
  windowsGo_flatten k hk l.length l (le_refl _)

theorem windowsGo_mem_ne_nil (k : Nat) (hk : 1 ≤ k) :
    ∀ (fuel : Nat) (l : List Nat), ∀ w ∈ windowsGo k fuel l, w ≠ [] := by
  intro fuel
  induction fuel with
  | zero =>
    intro l w hw
    cases l with
    | nil => simp [windowsGo] at hw
    | cons a l' => simp [windowsGo] at hw
  | succ fuel ih =>
    intro l w hw
    cases l with
    | nil => simp [windowsGo] at hw
    | cons a l' =>
      have hw' : w ∈ List.take k (a :: l') :: windowsGo k fuel ((a :: l').drop k) := hw
      rcases List.mem_cons.1 hw' with rfl | hw2
      · cases k with
        | zero => omega
        | succ k => simp
      · exact ih _ w hw2

theorem windowsGo_mem_length_le (k : Nat) :
    ∀ (fuel : Nat) (l : List Nat), ∀ w ∈ windowsGo k fuel l, w.length ≤ k := by
  intro fuel
  induction fuel with
  | zero =>
    intro l w hw
    cases l with
    | nil => simp [windowsGo] at hw
    | cons a l' => simp [windowsGo] at hw
  | succ fuel ih =>
    intro l w hw
    cases l with
    | nil => simp [windowsGo] at hw
    | cons a l' =>
      have hw' : w ∈ List.take k (a :: l') :: windowsGo k fuel ((a :: l').drop k) := hw
      rcases List.mem_cons.1 hw' with rfl | hw2
      · simp
      · exact ih _ w hw2

end RecursiveChunker


theorem rawSplitChars_cons (D : List Char) (inc : WasmInclude) (acc : Str) (c : Char)
    (rest : Str) :
    rawSplitChars D inc acc (c :: rest) =
      if c ∈ D then
        match inc with
        | .prev => (acc.reverse ++ [c]) :: rawSplitChars D inc [] rest
        | .next => acc.reverse :: rawSplitChars D inc [c] rest
        | .drop => acc.reverse :: rawSplitChars D inc [] rest
      else rawSplitChars D inc (c :: acc) rest := by
  rw [rawSplitChars.eq_def]

theorem rawSplitChars_totalLen (D : List Char) (inc : WasmInclude) :
    ∀ (t acc : Str), totalLen (rawSplitChars D inc acc t) ≤ acc.length + t.length := by
  intro t
  induction t with
  | nil =>
    intro acc
    simp [rawSplitChars, totalLen]
  | cons c rest ih =>
    intro acc
    rw [rawSplitChars_cons]
    by_cases hc : c ∈ D
    · simp only [hc, if_true]
      cases inc with
      | prev =>
        have := ih []
        simp [totalLen_cons] at this ⊢
        omega
      | next =>
        have := ih [c]
        simp [totalLen_cons] at this ⊢
        omega
      | drop =>
        have := ih []
        simp [totalLen_cons] at this ⊢
        omega
    · simp only [hc, if_false]
      have := ih (c :: acc)
      simp at this ⊢
      omega

theorem rawSplitChars_drop_count (D : List Char) :
    ∀ (t acc : Str),
      totalLen (rawSplitChars D .drop acc t) + (rawSplitChars D .drop acc t).length ≤
        acc.length + t.length + 1 := by
  intro t
  induction t with
  | nil =>
    intro acc
    simp [rawSplitChars, totalLen]
  | cons c rest ih =>
    intro acc
    rw [rawSplitChars_cons]
    by_cases hc : c ∈ D
    · simp only [hc, if_true]
      have := ih []
      simp [totalLen_cons] at this ⊢
      omega
    · simp only [hc, if_false]
      have := ih (c :: acc)
      simp at this ⊢
      omega

theorem pairwise_le_getLast :
    ∀ (es : List Nat) (L : Nat), List.Pairwise (· < ·) es →
      es.getLast? = some L → ∀ e ∈ es, e ≤ L := by
  intro es
  induction es with
  | nil => intro L _ _ e he; simp at he
  | cons e es' ih =>
    intro L hpw hL x hx
    cases es' with
    | nil =>
      simp at hL
      subst hL
      have : x = e := by simpa using hx
      omega
    | cons f es'' =>
      rw [SentenceChunker.getLast?_cons_of_ne_nil e (f :: es'') (by simp)] at hL
      have hrest := ih L (List.pairwise_cons.1 hpw).2 hL
      rcases List.mem_cons.1 hx with rfl | hx'
      · have hf : x < f := (List.pairwise_cons.1 hpw).1 f (List.mem_cons_self f es'')
        have := hrest f (List.mem_cons_self f es'')
        omega
      · exact hrest x hx'

theorem wasmMergeAux_spec (cap : Nat) (ws : Bool) :
    ∀ (rest : List Nat) (idx acc : Nat),
      (wasmMergeAux cap ws rest idx acc).1 ≠ [] ∧
      (wasmMergeAux cap ws rest idx acc).1.length =
        (wasmMergeAux cap ws rest idx acc).2.length ∧
      (∀ e ∈ (wasmMergeAux cap ws rest idx acc).1, idx ≤ e) ∧
      (wasmMergeAux cap ws rest idx acc).1.getLast? = some (idx + rest.length) ∧
      List.Pairwise (· < ·) (wasmMergeAux cap ws rest idx acc).1 := by
  intro rest
  induction rest with
  | nil =>
    intro idx acc
    refine ⟨by simp [wasmMergeAux], by simp [wasmMergeAux], ?_, by simp [wasmMergeAux], ?_⟩
    · intro e he
      simp [wasmMergeAux] at he
      omega
    · simp [wasmMergeAux]
  | cons c rest' ih =>
    intro idx acc
    rw [wasmMergeAux]
    by_cases hj : acc + c + (if ws then 1 else 0) ≤ cap
    · simp only [hj, if_true]
      obtain ⟨h1, h2, h3, h4, h5⟩ := ih (idx + 1) (acc + c + (if ws then 1 else 0))
      refine ⟨h1, h2, ?_, ?_, h5⟩
      · intro e he
        have := h3 e he
        omega
      · rw [h4]
        simp
        omega
    · simp only [hj, if_false]
      obtain ⟨h1, h2, h3, h4, h5⟩ := ih (idx + 1) c
      refine ⟨by simp, by simpa using h2, ?_, ?_, ?_⟩
      · intro e he
        rcases List.mem_cons.1 he with rfl | he'
        · exact le_refl e
        · have := h3 e he'
          omega
      · rw [SentenceChunker.getLast?_cons_of_ne_nil idx _ h1, h4]
        simp
        omega
      · rw [List.pairwise_cons]
        refine ⟨?_, h5⟩
        intro e he
        have := h3 e he
        omega

theorem groupSlices_flatten (splits : List Str) :
    ∀ (es : List Nat) (cur : Nat),
      (∀ e ∈ es, cur < e ∧ e ≤ splits.length) → List.Pairwise (· < ·) es →
      es.getLast? = some splits.length →
      (groupSlices splits cur es).flatten = splits.drop cur := by
  intro es
  induction es with
  | nil => intro cur _ _ hL; simp at hL
  | cons e es' ih =>
    intro cur hb hpw hL
    rw [groupSlices]
    simp only [List.flatten_cons]
    cases es' with
    | nil =>
      simp at hL
      subst hL
      rw [groupSlices]
      rw [List.take_of_length_le (by simp [List.length_drop])]
      simp
    | cons f es'' =>
      rw [SentenceChunker.getLast?_cons_of_ne_nil e (f :: es'') (by simp)] at hL
      have hrec := ih e ?_ (List.pairwise_cons.1 hpw).2 hL
      · rw [hrec]
        have hcur : cur < e := (hb e (List.mem_cons_self e _)).1
        have hdd : splits.drop e = (splits.drop cur).drop (e - cur) := by
          rw [List.drop_drop]
          rw [show cur + (e - cur) = e by omega]
        rw [hdd]
        exact List.take_append_drop (e - cur) (splits.drop cur)
      · intro x hx
        refine ⟨?_, (hb x (List.mem_cons_of_mem e hx)).2⟩
        exact (List.pairwise_cons.1 hpw).1 x hx

theorem groupSlices_mem_ne_nil (splits : List Str) :
    ∀ (es : List Nat) (cur : Nat),
      (∀ e ∈ es, cur < e ∧ e ≤ splits.length) → List.Pairwise (· < ·) es →
      ∀ g ∈ groupSlices splits cur es, g ≠ [] := by
  intro es
  induction es with
  | nil => intro cur _ _ g hg; simp [groupSlices] at hg
  | cons e es' ih =>
    intro cur hb hpw g hg
    rw [groupSlices] at hg
    rcases List.mem_cons.1 hg with rfl | hg'
    · have h1 : cur < e := (hb e (List.mem_cons_self e _)).1
      have h2 : e ≤ splits.length := (hb e (List.mem_cons_self e _)).2
      refine List.ne_nil_of_length_pos ?_
      simp [List.length_take, List.length_drop]
      omega
    · refine ih e ?_ (List.pairwise_cons.1 hpw).2 g hg'
      intro x hx
      exact ⟨(List.pairwise_cons.1 hpw).1 x hx, (hb x (List.mem_cons_of_mem e hx)).2⟩

theorem groupSlices_mem_subset (splits : List Str) :
    ∀ (es : List Nat) (cur : Nat), ∀ g ∈ groupSlices splits cur es, ∀ x ∈ g, x ∈ splits := by
  intro es
  induction es with
  | nil => intro cur g hg; simp [groupSlices] at hg
  | cons e es' ih =>
    intro cur g hg x hx
    rw [groupSlices] at hg
    rcases List.mem_cons.1 hg with rfl | hg'
    · exact List.mem_of_mem_drop (List.mem_of_mem_take hx)
    · exact ih e g hg' x hx

theorem totalLen_append (a b : List Str) : totalLen (a ++ b) = totalLen a + totalLen b := by
  simp [totalLen]

theorem groupSlices_length (splits : List Str) :
    ∀ (es : List Nat) (cur : Nat), (groupSlices splits cur es).length = es.length := by
  intro es
  induction es with
  | nil => intro cur; rfl
  | cons e es' ih => intro cur; simp [groupSlices, ih]

theorem wasmMergeSplits_spec (cap : Nat) (ws : Bool) (counts : List Nat)
    (hne : counts ≠ []) :
    (wasmMergeSplits counts cap ws).1 ≠ [] ∧
    (wasmMergeSplits counts cap ws).1.length = (wasmMergeSplits counts cap ws).2.length ∧
    (∀ e ∈ (wasmMergeSplits counts cap ws).1, 0 < e ∧ e ≤ counts.length) ∧
    List.Pairwise (· < ·) (wasmMergeSplits counts cap ws).1 ∧
    (wasmMergeSplits counts cap ws).1.getLast? = some counts.length := by
  cases counts with
  | nil => exact absurd rfl hne
  | cons c rest =>
    rw [wasmMergeSplits]
    obtain ⟨h1, h2, h3, h4, h5⟩ := wasmMergeAux_spec cap ws rest 1 c
    have hlast : (wasmMergeAux cap ws rest 1 c).1.getLast? = some (c :: rest).length := by
      rw [h4]
      simp
      omega
    refine ⟨h1, h2, ?_, h5, hlast⟩
    intro e he
    have hge := h3 e he
    have hle := pairwise_le_getLast (wasmMergeAux cap ws rest 1 c).1 (c :: rest).length
      h5 hlast e he
    exact ⟨by omega, hle⟩

theorem joinSep_single_length (c : Char) :
    ∀ g : List Str, g ≠ [] → (joinSep [c] g).length + 1 = totalLen g + g.length := by
  intro g
  induction g with
  | nil => intro h; exact absurd rfl h
  | cons x g' ih =>
    intro _
    cases g' with
    | nil => simp [joinSep, totalLen_cons, totalLen]
    | cons y g'' =>
      have := ih (by simp)
      simp [joinSep, totalLen_cons] at this ⊢
      omega

theorem sum_joinSep_single (c : Char) :
    ∀ groups : List (List Str), (∀ g ∈ groups, g ≠ []) →
      totalLen (groups.map (joinSep [c])) + groups.length =
        totalLen groups.flatten + groups.flatten.length := by
  intro groups
  induction groups with
  | nil => intro _; rfl
  | cons g gs ih =>
    intro h
    have hg : g ≠ [] := h g (List.mem_cons_self g gs)
    have hK := joinSep_single_length c g hg
    have hih := ih (fun x hx => h x (List.mem_cons_of_mem g hx))
    simp only [List.map_cons, totalLen_cons, List.flatten_cons, totalLen_append,
      List.length_cons, List.length_append]
    omega

theorem sum_flatten_map (groups : List (List Str)) :
    totalLen (groups.map List.flatten) = totalLen groups.flatten := by
  induction groups with
  | nil => rfl
  | cons g gs ih =>
    simp only [List.map_cons, totalLen_cons, List.flatten_cons, totalLen_append]
    rw [ih, totalLen_eq_length_flatten g]

theorem mergeSplitsRun_length_eq (cap : Nat) (ws : Bool) (splits : List Str)
    (counts : List Nat) (hlen : splits.length = counts.length) :
    (mergeSplitsRun cap splits counts ws).1.length =
      (mergeSplitsRun cap splits counts ws).2.length := by
  rw [mergeSplitsRun]
  by_cases h0 : splits = [] ∨ counts = []
  · simp [h0]
  · rw [if_neg h0]
    by_cases hall : counts.all (fun c => cap < c)
    · simp [hall, hlen]
    · rw [if_neg hall]
      have hcne : counts ≠ [] := by
        intro hc
        exact h0 (Or.inr hc)
      obtain ⟨h1, h2, h3, h4, h5⟩ := wasmMergeSplits_spec cap ws counts hcne
      simp [buildMerged, groupSlices_length, h2]

theorem mergeSplitsRun_pieces (cap : Nat) (ws : Bool) (splits : List Str)
    (counts : List Nat) (hlen : splits.length = counts.length) :
    ∀ x ∈ (mergeSplitsRun cap splits counts ws).1,
      x ∈ splits ∨ ∃ g, g ≠ [] ∧ (∀ y ∈ g, y ∈ splits) ∧
        x = (if ws then joinSep [' '] g else g.flatten) := by
  rw [mergeSplitsRun]
  by_cases h0 : splits = [] ∨ counts = []
  · simp [h0]
  · rw [if_neg h0]
    by_cases hall : counts.all (fun c => cap < c)
    · simp only [hall, if_true]
      intro x hx
      exact Or.inl hx
    · rw [if_neg hall]
      intro x hx
      have hcne : counts ≠ [] := fun hc => h0 (Or.inr hc)
      obtain ⟨h1, h2, h3, h4, h5⟩ := wasmMergeSplits_spec cap ws counts hcne
      dsimp only [buildMerged] at hx
      obtain ⟨g, hg, rfl⟩ := List.mem_map.1 hx
      refine Or.inr ⟨g, ?_, ?_, rfl⟩
      · refine groupSlices_mem_ne_nil splits _ 0 ?_ h4 g hg
        intro e he
        have := h3 e he
        omega
      · exact groupSlices_mem_subset splits _ 0 g hg

theorem mergeSplitsRun_totalLen_false (cap : Nat) (splits : List Str)
    (counts : List Nat) (hlen : splits.length = counts.length) :
    totalLen (mergeSplitsRun cap splits counts false).1 = totalLen splits := by
  rw [mergeSplitsRun]
  by_cases h0 : splits = [] ∨ counts = []
  · have hs : splits = [] := by
      rcases h0 with h | h
      · exact h
      · rw [h] at hlen
        exact List.length_eq_zero.1 (by simpa using hlen)
    simp [h0, hs, totalLen]
  · rw [if_neg h0]
    by_cases hall : counts.all (fun c => cap < c)
    · simp [hall]
    · rw [if_neg hall]
      have hcne : counts ≠ [] := fun hc => h0 (Or.inr hc)
      obtain ⟨h1, h2, h3, h4, h5⟩ := wasmMergeSplits_spec cap false counts hcne
      dsimp only [buildMerged]
      simp only [Bool.false_eq_true, if_false]
      have hflat := groupSlices_flatten splits (wasmMergeSplits counts cap false).1 0
        (fun e he => ⟨(h3 e he).1, by have := (h3 e he).2; omega⟩) h4
        (by rw [h5, hlen])
      rw [sum_flatten_map, hflat]
      simp

theorem mergeSplitsRun_totalLen_true (cap : Nat) (splits : List Str)
    (counts : List Nat) (hlen : splits.length = counts.length) :
    totalLen (mergeSplitsRun cap splits counts true).1 +
        (mergeSplitsRun cap splits counts true).1.length =
      totalLen splits + splits.length := by
  rw [mergeSplitsRun]
  by_cases h0 : splits = [] ∨ counts = []
  · have hs : splits = [] := by
      rcases h0 with h | h
      · exact h
      · rw [h] at hlen
        exact List.length_eq_zero.1 (by simpa using hlen)
    simp [h0, hs, totalLen]
  · rw [if_neg h0]
    by_cases hall : counts.all (fun c => cap < c)
    · simp [hall]
    · rw [if_neg hall]
      have hcne : counts ≠ [] := fun hc => h0 (Or.inr hc)
      obtain ⟨h1, h2, h3, h4, h5⟩ := wasmMergeSplits_spec cap true counts hcne
      dsimp only [buildMerged]
      simp only [if_true]
      have hbounds : ∀ e ∈ (wasmMergeSplits counts cap true).1,
          0 < e ∧ e ≤ splits.length := by
        intro e he
        exact ⟨(h3 e he).1, by have := (h3 e he).2; omega⟩
      have hflat := groupSlices_flatten splits (wasmMergeSplits counts cap true).1 0
        hbounds h4 (by rw [h5, hlen])
      have hne := groupSlices_mem_ne_nil splits (wasmMergeSplits counts cap true).1 0
        hbounds h4
      have hsum := sum_joinSep_single ' ' (groupSlices splits 0
        (wasmMergeSplits counts cap true).1) hne
      rw [show joinSep [' '] = (fun g => joinSep [' '] g) from rfl] at hsum
      rw [hflat] at hsum
      simp only [List.drop_zero] at hsum
      rw [List.length_map]
      rw [groupSlices_length] at hsum ⊢
      omega

namespace SentenceChunker

theorem attach_getElem? (ct : Str → Nat) :
    ∀ (l : List Str) (p i : Nat),
      (attach ct p l)[i]? = (l[i]?).map (fun s =>
        Sentence.mk s (p + totalLen (l.take i))
          (p + totalLen (l.take i) + s.length) (ct s)) := by
  intro l
  induction l with
  | nil => intro p i; simp [attach]
  | cons s rest ih =>
    intro p i
    cases i with
    | zero => simp [attach, totalLen]
    | succ i =>
      rw [attach]
      simp only [List.getElem?_cons_succ]
      rw [ih (p + s.length) i]
      cases h : rest[i]? with
      | none => simp [h]
      | some x =>
        simp only [h, Option.map_some, List.getElem?_cons_succ, List.take_succ_cons,
          totalLen_cons]
        rw [show p + (s.length + totalLen (rest.take i)) =
          p + s.length + totalLen (rest.take i) by omega]

theorem totalLen_take_mono (l : List Str) (i j : Nat) (hij : i ≤ j) :
    totalLen (l.take i) ≤ totalLen (l.take j) := by
  have := List.take_add l i (j - i)
  rw [show i + (j - i) = j by omega] at this
  rw [this, totalLen_append]
  omega

theorem totalLen_take_succ_lt (l : List Str) (i : Nat) (hi : i < l.length)
    (hne : ∀ s ∈ l, s ≠ []) :
    totalLen (l.take i) < totalLen (l.take (i + 1)) := by
  rw [List.take_succ]
  rw [List.getElem?_eq_getElem hi]
  rw [show (some l[i]).toList = [l[i]] from rfl]
  rw [totalLen_append]
  have hmem : l[i] ∈ l := List.getElem_mem hi
  have : l[i].length ≠ 0 := by
    intro h0
    exact hne l[i] hmem (List.length_eq_zero.1 h0)
  have : totalLen [l[i]] = l[i].length := by simp [totalLen]
  omega

end SentenceChunker

namespace SentenceChunker

theorem attach_length (ct : Str → Nat) :
    ∀ (l : List Str) (p : Nat), (attach ct p l).length = l.length := by
  intro l
  induction l with
  | nil => intro p; rfl
  | cons s rest ih => intro p; simp [attach, ih]

theorem attach_getD (ct : Str → Nat) (l : List Str) (p i : Nat) (hi : i < l.length) :
    ((attach ct p l).getD i default).startIndex = p + totalLen (l.take i) ∧
    ((attach ct p l).getD i default).endIndex =
      p + totalLen (l.take i) + l[i].length := by
  rw [List.getD_eq_getElem?_getD, attach_getElem? ct l p i,
    List.getElem?_eq_getElem hi]
  simp

theorem attach_start_strict (ct : Str → Nat) (l : List Str)
    (hne : ∀ s ∈ l, s ≠ []) (p i j : Nat) (hij : i < j) (hj : j < l.length) :
    ((attach ct p l).getD i default).startIndex <
      ((attach ct p l).getD j default).startIndex := by
  rw [(attach_getD ct l p i (by omega)).1, (attach_getD ct l p j hj).1]
  have h1 := totalLen_take_succ_lt l i (by omega) hne
  have h2 := totalLen_take_mono l (i + 1) j (by omega)
  omega

theorem attach_start_mono (ct : Str → Nat) (l : List Str) (p i j : Nat)
    (hij : i ≤ j) (hj : j < l.length) :
    ((attach ct p l).getD i default).startIndex ≤
      ((attach ct p l).getD j default).startIndex := by
  rw [(attach_getD ct l p i (by omega)).1, (attach_getD ct l p j hj).1]
  have := totalLen_take_mono l i j hij
  omega

theorem slice_head_getLast (sentences : List Sentence) (pos k : Nat)
    (hpk : pos < k) (hk : k ≤ sentences.length) :
    ((sentences.drop pos).take (k - pos)).head? = some (sentences.getD pos default) ∧
    ((sentences.drop pos).take (k - pos)).getLast? =
      some (sentences.getD (k - 1) default) := by
  constructor
  · rw [List.head?_take]
    rw [if_neg (by omega)]
    rw [List.head?_drop]
    rw [List.getElem?_eq_getElem (by omega)]
    rw [List.getD_eq_getElem?_getD, List.getElem?_eq_getElem (by omega)]
    simp
  · rw [List.getLast?_eq_getElem?]
    have hlen : ((sentences.drop pos).take (k - pos)).length = k - pos := by
      simp [List.length_take, List.length_drop]
      omega
    rw [hlen]
    rw [List.getElem?_take]
    rw [if_pos (by omega)]
    rw [List.getElem?_drop]
    rw [show pos + (k - pos - 1) = k - 1 by omega]
    rw [List.getD_eq_getElem?_getD, List.getElem?_eq_getElem (by omega)]
    simp

theorem createChunk_start (ct : Str → Nat) (slice : List Sentence) (s : Sentence)
    (h : slice.head? = some s) : (createChunk ct slice).startIndex = s.startIndex := by
  simp [createChunk, h]

theorem createChunk_endIdx (ct : Str → Nat) (slice : List Sentence) (s : Sentence)
    (h : slice.getLast? = some s) : (createChunk ct slice).endIndex = s.endIndex := by
  simp [createChunk, h]

theorem chunkLoop_chain (cfg : SCfg) (ct : Str → Nat) (frags : List Str)
    (hfr : ∀ s ∈ frags, s ≠ []) (sums : List Nat) :
    ∀ (fuel pos : Nat), pos < (attach ct 0 frags).length →
      (∀ c ∈ (chunkLoop cfg ct (attach ct 0 frags) sums fuel pos).1,
          ((attach ct 0 frags).getD pos default).startIndex ≤ c.startIndex ∧
          c.startIndex < c.endIndex) ∧
      List.Chain' (fun a b => a.startIndex < b.startIndex)
        (chunkLoop cfg ct (attach ct 0 frags) sums fuel pos).1 := by
  set sentences := attach ct 0 frags with hsen
  have hlen : sentences.length = frags.length := attach_length ct frags 0
  intro fuel
  induction fuel with
  | zero =>
    intro pos _
    exact ⟨by simp [chunkLoop], by simp [chunkLoop]⟩
  | succ fuel ih =>
    intro pos hp
    rw [chunkLoop]
    simp only [hp, if_true]
    have hb := splitIdxWarn_bounds cfg sentences.length sums pos hp
    set k := (splitIdxWarn cfg sentences.length sums pos).1 with hk
    set slice := (sentences.drop pos).take (k - pos) with hslice
    obtain ⟨hhead, hlast⟩ := slice_head_getLast sentences pos k (by omega) (by omega)
    have hcs : (createChunk ct slice).startIndex =
        ((sentences.getD pos default)).startIndex :=
      createChunk_start ct slice _ hhead
    have hce : (createChunk ct slice).endIndex =
        ((sentences.getD (k - 1) default)).endIndex :=
      createChunk_endIdx ct slice _ hlast
    have hstartlt : (createChunk ct slice).startIndex < (createChunk ct slice).endIndex := by
      rw [hcs, hce]
      have hm := attach_start_mono ct frags 0 pos (k - 1) (by omega) (by omega)
      have he := (attach_getD ct frags 0 (k - 1) (by omega)).2
      have hs := (attach_getD ct frags 0 (k - 1) (by omega)).1
      have hfi : frags[k - 1].length ≠ 0 := by
        intro h0
        exact hfr frags[k - 1] (List.getElem_mem (by omega)) (List.length_eq_zero.1 h0)
      rw [← hsen] at hm he hs
      omega
    set pos' := nextPos cfg sentences sums pos with hpos'
    have hgt : pos < pos' := nextPos_gt cfg sentences sums pos hp
    by_cases hp' : pos' < sentences.length
    · obtain ⟨ihmem, ihchain⟩ := ih pos' hp'
      constructor
      · intro c hc
        rcases List.mem_cons.1 hc with rfl | hc'
        · exact ⟨le_of_eq hcs.symm, hstartlt⟩
        · have hmono := attach_start_strict ct frags hfr 0 pos pos' (by omega) (by omega)
          rw [← hsen] at hmono
          have := (ihmem c hc').1
          exact ⟨by omega, (ihmem c hc').2⟩
      · rw [List.chain'_cons']
        refine ⟨?_, ihchain⟩
        intro b hbh
        have hbmem : b ∈ (chunkLoop cfg ct sentences sums fuel pos').1 :=
          List.mem_of_mem_head? hbh
        have hmono := attach_start_strict ct frags hfr 0 pos pos' (by omega) (by omega)
        rw [← hsen] at hmono
        have := (ihmem b hbmem).1
        rw [hcs]
        omega
    · rw [chunkLoop_at_end cfg ct sentences sums fuel pos' (by omega)]
      refine ⟨?_, by simp⟩
      intro c hc
      have : c = createChunk ct slice := by simpa using hc
      subst this
      exact ⟨le_of_eq hcs.symm, hstartlt⟩

end SentenceChunker

theorem mem_of_getLast?_eq {α : Type} (l : List α) (a : α) (h : l.getLast? = some a) :
    a ∈ l := by
  obtain ⟨hne, rfl⟩ := List.mem_getLast?_eq_getLast (by rw [h]; rfl)
  exact List.getLast_mem hne

theorem flatten_ne_nil_of_head (g : List Str) (hg : g ≠ []) (hm : ∀ y ∈ g, y ≠ []) :
    g.flatten ≠ [] := by
  cases g with
  | nil => exact absurd rfl hg
  | cons y g' =>
    have hy : y ≠ [] := hm y (List.mem_cons_self y g')
    simp [List.flatten_cons]
    intro h
    exact absurd h hy

theorem joinSep_ne_nil (sep : Str) (g : List Str) (hg : g ≠ [])
    (hm : ∀ y ∈ g, y ≠ []) : joinSep sep g ≠ [] := by
  cases g with
  | nil => exact absurd rfl hg
  | cons y g' =>
    cases g' with
    | nil => exact hm y (List.mem_cons_self y [])
    | cons z g'' =>
      show y ++ sep ++ joinSep sep (z :: g'') ≠ []
      have hy : y ≠ [] := hm y (by simp)
      simp
      intro h
      exact absurd h hy

theorem wsPrefix_length (M : List Str) : (RecursiveChunker.wsPrefixSpaces M).length = M.length := by
  cases M with
  | nil => rfl
  | cons x xs => simp [RecursiveChunker.wsPrefixSpaces]

theorem wsPrefix_mem (M : List Str) :
    ∀ x ∈ RecursiveChunker.wsPrefixSpaces M,
      x ∈ M ∨ ∃ y ∈ M, x = ' ' :: y := by
  cases M with
  | nil => intro x hx; simp [RecursiveChunker.wsPrefixSpaces] at hx
  | cons m ms =>
    rw [RecursiveChunker.wsPrefixSpaces]
    intro x hx
    rcases List.mem_cons.1 hx with h | hx'
    · exact Or.inl (by rw [h]; exact List.mem_cons_self _ _)
    · obtain ⟨y, hy, rfl⟩ := List.mem_map.1 hx'
      exact Or.inr ⟨y, List.mem_cons_of_mem m hy, rfl⟩

theorem consSpace_totalLen :
    ∀ ms : List Str, totalLen (ms.map (fun s => ' ' :: s)) = totalLen ms + ms.length := by
  intro ms
  induction ms with
  | nil => rfl
  | cons z zs ih =>
    simp only [List.map_cons, totalLen_cons, List.length_cons, ih]
    omega

theorem wsPrefix_totalLen (M : List Str) (hM : M ≠ []) :
    totalLen (RecursiveChunker.wsPrefixSpaces M) + 1 = totalLen M + M.length := by
  cases M with
  | nil => exact absurd rfl hM
  | cons m ms =>
    show totalLen (m :: ms.map (fun s => ' ' :: s)) + 1 = _
    rw [totalLen_cons, totalLen_cons]
    rw [consSpace_totalLen ms]
    simp only [List.length_cons]
    omega

theorem mergeSplitsRun_ne_nil (cap : Nat) (ws : Bool) (splits : List Str)
    (counts : List Nat) (hlen : splits.length = counts.length) (hne : splits ≠ []) :
    (mergeSplitsRun cap splits counts ws).1 ≠ [] := by
  have hcne : counts ≠ [] := by
    intro hc
    rw [hc] at hlen
    exact hne (List.length_eq_zero.1 (by simpa using hlen))
  rw [mergeSplitsRun]
  rw [if_neg (by simp [hne, hcne])]
  by_cases hall : counts.all (fun c => cap < c)
  · simpa [hall] using hne
  · rw [if_neg hall]
    obtain ⟨h1, _, _, _, _⟩ := wasmMergeSplits_spec cap ws counts hcne
    dsimp only [buildMerged]
    intro hempty
    have := congrArg List.length hempty
    simp [groupSlices_length] at this
    exact h1 this


theorem totalLen_map_map (f : Nat → Char) (ws : List (List Nat)) :
    totalLen (ws.map (List.map f)) = ws.flatten.length := by
  induction ws with
  | nil => rfl
  | cons w ws ih =>
    simp only [List.map_cons, totalLen_cons, List.flatten_cons, List.length_append,
      List.length_map, ih]

namespace RecursiveChunker

theorem splitText_whitespace_eq (tok : Tokenizer) (cfg : RCfg) (t : Str) :
    splitText tok cfg .whitespace t = wasmSplit [' '] .drop 0 t := rfl

theorem splitText_delimiters_eq (tok : Tokenizer) (cfg : RCfg) (ds : List Str)
    (inc : IncludeDelim) (t : Str) :
    ∃ wInc, splitText tok cfg (.delimiters ds inc) t =
      wasmSplit ds.flatten wInc cfg.minCharactersPerChunk t := by
  cases inc with
  | prev => exact ⟨.prev, rfl⟩
  | next => exact ⟨.next, rfl⟩
  | drop => exact ⟨.drop, rfl⟩

theorem splitText_token_eq (tok : Tokenizer) (cfg : RCfg) (t : Str) :
    splitText tok cfg .token t =
      (windows cfg.chunkSize (tok.encode t)).map tok.decode := rfl

theorem splitText_ne_nil (cfg : RCfg) (hcs : 1 ≤ cfg.chunkSize) (rule : RecLevel)
    (t : Str) : ∀ x ∈ splitText charTok cfg rule t, x ≠ [] := by
  intro x hx
  match rule with
  | .whitespace =>
    rw [splitText_whitespace_eq] at hx
    exact foldSentences_mem_ne_nil 0 _ [] x hx
  | .delimiters ds inc =>
    obtain ⟨wInc, heq⟩ := splitText_delimiters_eq charTok cfg ds inc t
    rw [heq] at hx
    exact foldSentences_mem_ne_nil cfg.minCharactersPerChunk _ [] x hx
  | .token =>
    rw [splitText_token_eq] at hx
    obtain ⟨w, hw, rfl⟩ := List.mem_map.1 hx
    have hwne : w ≠ [] := windowsGo_mem_ne_nil cfg.chunkSize hcs _ _ w hw
    show (w.map Char.ofNat) ≠ []
    simpa using hwne

theorem splitText_totalLen (cfg : RCfg) (hcs : 1 ≤ cfg.chunkSize) (rule : RecLevel)
    (t : Str) : totalLen (splitText charTok cfg rule t) ≤ t.length := by
  match rule with
  | .whitespace =>
    rw [splitText_whitespace_eq, wasmSplit]
    rw [totalLen_eq_length_flatten, foldSentences_flatten]
    simp only [List.nil_append]
    rw [← totalLen_eq_length_flatten]
    simpa using rawSplitChars_totalLen [' '] .drop t []
  | .delimiters ds inc =>
    obtain ⟨wInc, heq⟩ := splitText_delimiters_eq charTok cfg ds inc t
    rw [heq, wasmSplit]
    rw [totalLen_eq_length_flatten, foldSentences_flatten]
    simp only [List.nil_append]
    rw [← totalLen_eq_length_flatten]
    simpa using rawSplitChars_totalLen _ _ t []
  | .token =>
    rw [splitText_token_eq]
    show totalLen ((windows cfg.chunkSize (t.map Char.toNat)).map (List.map Char.ofNat)) ≤ _
    rw [totalLen_map_map]
    rw [windows_flatten cfg.chunkSize hcs]
    simp

theorem splitText_ws_count (cfg : RCfg) (t : Str) :
    totalLen (splitText charTok cfg .whitespace t) +
        (splitText charTok cfg .whitespace t).length ≤ t.length + 1 := by
  rw [splitText_whitespace_eq, wasmSplit]
  have h1 : totalLen (foldSentences 0 [] (rawSplitChars [' '] .drop [] t)) =
      totalLen (rawSplitChars [' '] .drop [] t) := by
    rw [totalLen_eq_length_flatten, foldSentences_flatten]
    simp only [List.nil_append]
    rw [← totalLen_eq_length_flatten]
  have h2 := foldSentences_length_le 0 (rawSplitChars [' '] .drop [] t) []
  have h3 := rawSplitChars_drop_count [' '] t []
  simp at h2 h3
  omega

theorem mergeByRule_length_eq (cap : Nat) (rule : RecLevel) (splits : List Str)
    (counts : List Nat) (hlen : splits.length = counts.length) :
    (mergeByRule cap rule splits counts).1.length =
      (mergeByRule cap rule splits counts).2.length := by
  match rule with
  | .token => exact hlen
  | .delimiters ds inc => exact mergeSplitsRun_length_eq cap false splits counts hlen
  | .whitespace =>
    show (wsPrefixSpaces (mergeSplitsRun cap splits counts true).1).length = _
    rw [wsPrefix_length]
    exact mergeSplitsRun_length_eq cap true splits counts hlen

theorem mergeByRule_ne_nil (cap : Nat) (rule : RecLevel) (splits : List Str)
    (counts : List Nat) (hlen : splits.length = counts.length)
    (hne : ∀ s ∈ splits, s ≠ []) :
    ∀ x ∈ (mergeByRule cap rule splits counts).1, x ≠ [] := by
  match rule with
  | .token => exact hne
  | .delimiters ds inc =>
    intro x hx
    rcases mergeSplitsRun_pieces cap false splits counts hlen x hx with h | ⟨g, hg, hgs, hxe⟩
    · exact hne x h
    · rw [hxe]
      simp only [Bool.false_eq_true, if_false]
      exact flatten_ne_nil_of_head g hg (fun y hy => hne y (hgs y hy))
  | .whitespace =>
    intro x hx
    have hMne : ∀ y ∈ (mergeSplitsRun cap splits counts true).1, y ≠ [] := by
      intro y hy
      rcases mergeSplitsRun_pieces cap true splits counts hlen y hy with h | ⟨g, hg, hgs, hye⟩
      · exact hne y h
      · rw [hye]
        simp only [if_true]
        exact joinSep_ne_nil [' '] g hg (fun z hz => hne z (hgs z hz))
    have hx' : x ∈ wsPrefixSpaces (mergeSplitsRun cap splits counts true).1 := hx
    rcases wsPrefix_mem (mergeSplitsRun cap splits counts true).1 x hx' with h | ⟨y, hy, rfl⟩
    · exact hMne x h
    · simp

theorem mergeByRule_totalLen (cfg : RCfg) (hcs : 1 ≤ cfg.chunkSize) (rule : RecLevel)
    (t : Str) :
    totalLen (mergeByRule cfg.chunkSize rule (splitText charTok cfg rule t)
      ((splitText charTok cfg rule t).map
        (estimateTokenCount charTok cfg.chunkSize))).1 ≤ t.length := by
  have hlen : (splitText charTok cfg rule t).length =
      ((splitText charTok cfg rule t).map
        (estimateTokenCount charTok cfg.chunkSize)).length := by simp
  have hst := splitText_totalLen cfg hcs rule t
  match rule with
  | .token => exact hst
  | .delimiters ds inc =>
    show totalLen (mergeSplitsRun _ _ _ false).1 ≤ _
    rw [mergeSplitsRun_totalLen_false _ _ _ hlen]
    exact hst
  | .whitespace =>
    show totalLen (wsPrefixSpaces (mergeSplitsRun _ _ _ true).1) ≤ _
    by_cases hsp : splitText charTok cfg .whitespace t = []
    · rw [hsp]
      rw [show mergeSplitsRun cfg.chunkSize ([] : List Str)
        (([] : List Str).map (estimateTokenCount charTok cfg.chunkSize)) true =
          ([], []) from rfl]
      simp [wsPrefixSpaces, totalLen]
    · have hM := mergeSplitsRun_ne_nil cfg.chunkSize true _ _ hlen hsp
      have hwc := splitText_ws_count cfg t
      have htrue := mergeSplitsRun_totalLen_true cfg.chunkSize _ _ hlen
      have hwp := wsPrefix_totalLen _ hM
      have hMlen : 1 ≤ (mergeSplitsRun cfg.chunkSize (splitText charTok cfg .whitespace t)
          ((splitText charTok cfg .whitespace t).map
            (estimateTokenCount charTok cfg.chunkSize)) true).1.length := by
        cases hMc : (mergeSplitsRun cfg.chunkSize (splitText charTok cfg .whitespace t)
            ((splitText charTok cfg .whitespace t).map
              (estimateTokenCount charTok cfg.chunkSize)) true).1 with
        | nil => exact absurd hMc hM
        | cons a b => simp
      omega

end RecursiveChunker

namespace RecursiveChunker

theorem emitPieces_offsets (cap : Nat) (rec : Str → Nat → List Chunk)
    (hrec : ∀ (s : Str) (o : Nat),
      (∀ c ∈ rec s o, o ≤ c.startIndex ∧ c.startIndex < c.endIndex ∧
        c.endIndex ≤ o + s.length) ∧
      List.Chain' (fun a b => a.startIndex < b.startIndex) (rec s o)) :
    ∀ (pieces : List (Str × Nat)) (off : Nat),
      (∀ p ∈ pieces, p.1 ≠ []) →
      (∀ c ∈ emitPieces cap rec pieces off,
          off ≤ c.startIndex ∧ c.startIndex < c.endIndex ∧
          c.endIndex ≤ off + totalLen (pieces.map Prod.fst)) ∧
      List.Chain' (fun a b => a.startIndex < b.startIndex)
        (emitPieces cap rec pieces off) := by
  intro pieces
  induction pieces with
  | nil =>
    intro off _
    exact ⟨by simp [emitPieces], by simp [emitPieces]⟩
  | cons p rest ih =>
    intro off hne
    obtain ⟨s, tc⟩ := p
    have hs : s ≠ [] := hne (s, tc) (List.mem_cons_self _ _)
    rw [emitPieces]
    have hblock : ∀ c ∈ (if tc > cap then rec s off else [makeChunk s tc off]),
        off ≤ c.startIndex ∧ c.startIndex < c.endIndex ∧
        c.endIndex ≤ off + s.length := by
      intro c hc
      by_cases htc : tc > cap
      · rw [if_pos htc] at hc
        exact ((hrec s off).1 c hc)
      · rw [if_neg htc] at hc
        have : c = makeChunk s tc off := by simpa using hc
        subst this
        have : s.length ≠ 0 := fun h0 => hs (List.length_eq_zero.1 h0)
        refine ⟨le_refl _, ?_, ?_⟩ <;> simp [makeChunk] <;> omega
    have hblockchain : List.Chain' (fun a b => a.startIndex < b.startIndex)
        (if tc > cap then rec s off else [makeChunk s tc off]) := by
      by_cases htc : tc > cap
      · rw [if_pos htc]
        exact (hrec s off).2
      · rw [if_neg htc]
        simp
    obtain ⟨ihmem, ihchain⟩ := ih (off + s.length)
      (fun q hq => hne q (List.mem_cons_of_mem _ hq))
    constructor
    · intro c hc
      rcases List.mem_append.1 hc with hc1 | hc2
      · obtain ⟨h1, h2, h3⟩ := hblock c hc1
        refine ⟨h1, h2, ?_⟩
        simp only [List.map_cons, totalLen_cons]
        omega
      · obtain ⟨h1, h2, h3⟩ := ihmem c hc2
        refine ⟨by omega, h2, ?_⟩
        simp only [List.map_cons, totalLen_cons]
        omega
    · rw [List.chain'_append]
      refine ⟨hblockchain, ihchain, ?_⟩
      intro a ha b hb
      have hamem : a ∈ (if tc > cap then rec s off else [makeChunk s tc off]) := by
        rcases Option.mem_def.1 ha with h
        exact mem_of_getLast?_eq _ a h
      have hbmem : b ∈ emitPieces cap rec rest (off + s.length) :=
        List.mem_of_mem_head? hb
      obtain ⟨_, ha2, ha3⟩ := hblock a hamem
      obtain ⟨hb1, _, _⟩ := ihmem b hbmem
      omega

theorem recursiveChunkFuel_offsets (cfg : RCfg) (hcs : 1 ≤ cfg.chunkSize) :
    ∀ (fuel : Nat) (t : Str) (level off : Nat),
      (∀ c ∈ recursiveChunkFuel charTok cfg fuel t level off,
          off ≤ c.startIndex ∧ c.startIndex < c.endIndex ∧
          c.endIndex ≤ off + t.length) ∧
      List.Chain' (fun a b => a.startIndex < b.startIndex)
        (recursiveChunkFuel charTok cfg fuel t level off) := by
  intro fuel
  induction fuel with
  | zero =>
    intro t level off
    exact ⟨by simp [recursiveChunkFuel], by simp [recursiveChunkFuel]⟩
  | succ fuel ih =>
    intro t level off
    rw [recursiveChunkFuel]
    by_cases ht : t = []
    · simp [ht]
    · rw [if_neg ht]
      by_cases hl : cfg.rules.length ≤ level
      · rw [dif_pos hl]
        have : t.length ≠ 0 := fun h0 => ht (List.length_eq_zero.1 h0)
        refine ⟨?_, by simp⟩
        intro c hc
        have : c = makeChunk t (estimateTokenCount charTok cfg.chunkSize t) off := by
          simpa using hc
        subst this
        refine ⟨le_refl _, ?_, ?_⟩ <;> simp [makeChunk] <;> omega
      · rw [dif_neg hl]
        set rule := cfg.rules.get ⟨level, by omega⟩ with hrule
        set splits := splitText charTok cfg rule t with hsplits
        set counts := splits.map (estimateTokenCount charTok cfg.chunkSize) with hcounts
        set m := mergeByRule cfg.chunkSize rule splits counts with hm
        have hlen : splits.length = counts.length := by simp [hcounts]
        have hsne : ∀ s ∈ splits, s ≠ [] := by
          rw [hsplits]
          exact splitText_ne_nil cfg hcs rule t
        have hmlen : m.1.length = m.2.length := by
          rw [hm]
          exact mergeByRule_length_eq cfg.chunkSize rule splits counts hlen
        have hmne : ∀ x ∈ m.1, x ≠ [] := by
          rw [hm]
          exact mergeByRule_ne_nil cfg.chunkSize rule splits counts hlen hsne
        have hmtl : totalLen m.1 ≤ t.length := by
          rw [hm, hsplits, hcounts, hsplits]
          exact mergeByRule_totalLen cfg hcs rule t
        have hmapfst : (m.1.zip m.2).map Prod.fst = m.1 :=
          List.map_fst_zip m.1 m.2 (by omega)
        have hpne : ∀ p ∈ m.1.zip m.2, p.1 ≠ [] := by
          intro p hp
          exact hmne p.1 (List.of_mem_zip hp).1
        obtain ⟨hememb, hechain⟩ := emitPieces_offsets cfg.chunkSize
          (fun s o => recursiveChunkFuel charTok cfg fuel s (level + 1) o)
          (fun s o => ih s (level + 1) o) (m.1.zip m.2) off hpne
        refine ⟨?_, hechain⟩
        intro c hc
        obtain ⟨h1, h2, h3⟩ := hememb c hc
        rw [hmapfst] at h3
        exact ⟨h1, h2, by omega⟩

end RecursiveChunker

theorem splitText_mem_ne_nil (cfg : SCfg) (text : Str) :
    ∀ s ∈ SentenceChunker.splitText cfg text, s ≠ [] := by
  rw [SentenceChunker.splitText]
  exact foldSentences_mem_ne_nil cfg.minCharactersPerSentence _ []

/-- Claim C6: offset monotonicity for both pipelines — every chunk has
`startIndex < endIndex`, and consecutive chunks have strictly increasing
`startIndex` (even when overlap makes a start fall before the previous
chunk's end).  The recursive half is stated for the default character
tokenizer and a validated (`chunkSize ≥ 1`) configuration. -/
theorem c6_offset_monotonicity :
    (∀ (cfg : SCfg) (ct : Str → Nat) (text : Str),
        (∀ c ∈ SentenceChunker.chunk cfg ct text, c.startIndex < c.endIndex) ∧
        List.Chain' (fun a b => a.startIndex < b.startIndex)
          (SentenceChunker.chunk cfg ct text)) ∧
    (∀ (cfg : RCfg) (text : Str), 1 ≤ cfg.chunkSize →
        (∀ c ∈ RecursiveChunker.chunk charTok cfg text, c.startIndex < c.endIndex) ∧
        List.Chain' (fun a b => a.startIndex < b.startIndex)
          (RecursiveChunker.chunk charTok cfg text)) := by
  constructor
  · intro cfg ct text
    unfold SentenceChunker.chunk SentenceChunker.chunkWithWarn
    by_cases hws : text.all jsWhitespace
    · simp [hws]
    · simp only [hws, if_false]
      by_cases hnil : SentenceChunker.prepareSentences cfg ct text = []
      · simp [hnil]
      · simp only [hnil, if_false]
        have h0 : 0 < (SentenceChunker.prepareSentences cfg ct text).length := by
          cases h : SentenceChunker.prepareSentences cfg ct text with
          | nil => exact absurd h hnil
          | cons a b => simp [h]
        have hlenpos : 0 < (SentenceChunker.attach ct 0
            (SentenceChunker.splitText cfg text)).length := h0
        obtain ⟨hmem, hchain⟩ := SentenceChunker.chunkLoop_chain cfg ct
          (SentenceChunker.splitText cfg text) (splitText_mem_ne_nil cfg text)
          (SentenceChunker.tokenSums (SentenceChunker.prepareSentences cfg ct text))
          (SentenceChunker.prepareSentences cfg ct text).length 0 hlenpos
        exact ⟨fun c hc => (hmem c hc).2, hchain⟩
  · intro cfg text hcs
    obtain ⟨hmem, hchain⟩ := RecursiveChunker.recursiveChunkFuel_offsets cfg hcs
      (cfg.rules.length + 1) text 0 0
    exact ⟨fun c hc => (hmem c hc).2.1, hchain⟩

/-- Witness for C6 at concrete inputs for both pipelines. -/
theorem c6_offset_monotonicity_witness :
    ((∀ c ∈ SentenceChunker.chunk cfgC2 tokC2 textC2, c.startIndex < c.endIndex) ∧
      List.Chain' (fun a b => a.startIndex < b.startIndex)
        (SentenceChunker.chunk cfgC2 tokC2 textC2)) ∧
    (1 ≤ rcfgW6.chunkSize ∧
      (∀ c ∈ RecursiveChunker.chunk charTok rcfgW6 textW6, c.startIndex < c.endIndex) ∧
      List.Chain' (fun a b => a.startIndex < b.startIndex)
        (RecursiveChunker.chunk charTok rcfgW6 textW6)) :=
  ⟨c6_offset_monotonicity.1 cfgC2 tokC2 textC2,
   by
    refine ⟨by decide, ?_, ?_⟩
    · exact (c6_offset_monotonicity.2 rcfgW6 textW6 (by decide)).1
    · exact (c6_offset_monotonicity.2 rcfgW6 textW6 (by decide)).2⟩

theorem zip_map_self {α β : Type} (f : α → β) :
    ∀ (l : List α) (p : α × β), p ∈ l.zip (l.map f) → p.2 = f p.1 ∧ p.1 ∈ l := by
  intro l
  induction l with
  | nil => intro p hp; simp at hp
  | cons x xs ih =>
    intro p hp
    rcases List.mem_cons.1 hp with rfl | hp'
    · exact ⟨rfl, List.mem_cons_self x xs⟩
    · obtain ⟨h1, h2⟩ := ih p hp'
      exact ⟨h1, List.mem_cons_of_mem x h2⟩

namespace RecursiveChunker

theorem token_estimate_le (cfg : RCfg) (hcs : 1 ≤ cfg.chunkSize) (t : Str) :
    ∀ p ∈ splitText charTok cfg .token t,
      estimateTokenCount charTok cfg.chunkSize p ≤ cfg.chunkSize := by
  intro p hp
  rw [splitText_token_eq] at hp
  obtain ⟨w, hw, rfl⟩ := List.mem_map.1 hp
  have hwlen : w.length ≤ cfg.chunkSize := windowsGo_mem_length_le cfg.chunkSize _ _ w hw
  have hplen : (charTok.decode w).length = w.length := by simp [charTok]
  rw [estimateTokenCount]
  have hest : max 1 (2 * (charTok.decode w).length / 13) ≤ cfg.chunkSize := by
    rw [hplen]
    have : 2 * w.length / 13 ≤ w.length := by omega
    omega
  rw [if_neg (by omega)]
  show (charTok.decode w).length ≤ cfg.chunkSize
  omega

theorem emitPieces_all_le (cap : Nat) (rec : Str → Nat → List Chunk) :
    ∀ (pieces : List (Str × Nat)) (off : Nat),
      (∀ p ∈ pieces, p.2 ≤ cap) →
      (emitPieces cap rec pieces off).map Chunk.text = pieces.map Prod.fst ∧
      ∀ c ∈ emitPieces cap rec pieces off, c.tokenCount ≤ cap := by
  intro pieces
  induction pieces with
  | nil => intro off _; exact ⟨rfl, by simp [emitPieces]⟩
  | cons p rest ih =>
    intro off h
    obtain ⟨s, tc⟩ := p
    have htc : tc ≤ cap := h (s, tc) (List.mem_cons_self _ _)
    rw [emitPieces]
    rw [if_neg (by omega)]
    obtain ⟨ih1, ih2⟩ := ih (off + s.length) (fun q hq => h q (List.mem_cons_of_mem _ hq))
    constructor
    · simp only [List.map_append, List.map_cons, ih1]
      rfl
    · intro c hc
      rcases List.mem_append.1 hc with hc1 | hc2
      · have : c = makeChunk s tc off := by simpa using hc1
        subst this
        exact htc
      · exact ih2 c hc2

theorem emitPieces_budget (cap : Nat) (rec : Str → Nat → List Chunk) :
    ∀ (pieces : List (Str × Nat)) (off : Nat),
      (∀ p ∈ pieces, cap < p.2 → ∀ o, ∀ c ∈ rec p.1 o, c.tokenCount ≤ cap) →
      ∀ c ∈ emitPieces cap rec pieces off, c.tokenCount ≤ cap := by
  intro pieces
  induction pieces with
  | nil => intro off _ c hc; simp [emitPieces] at hc
  | cons p rest ih =>
    intro off h c hc
    obtain ⟨s, tc⟩ := p
    rw [emitPieces] at hc
    rcases List.mem_append.1 hc with hc1 | hc2
    · by_cases htc : tc > cap
      · rw [if_pos htc] at hc1
        exact h (s, tc) (List.mem_cons_self _ _) htc off c hc1
      · rw [if_neg htc] at hc1
        have : c = makeChunk s tc off := by simpa using hc1
        subst this
        have : (makeChunk s tc off).tokenCount = tc := rfl
        omega
    · exact ih (off + s.length) (fun q hq => h q (List.mem_cons_of_mem _ hq)) c hc2

theorem rules_getLast_token (cfg : RCfg) (hlast : cfg.rules.getLast? = some .token)
    (h : cfg.rules.length - 1 < cfg.rules.length) :
    cfg.rules.get ⟨cfg.rules.length - 1, h⟩ = .token := by
  rw [List.getLast?_eq_getElem?] at hlast
  rw [List.getElem?_eq_getElem h] at hlast
  simpa using hlast

theorem recursiveChunkFuel_budget (cfg : RCfg) (hcs : 1 ≤ cfg.chunkSize)
    (hlast : cfg.rules.getLast? = some .token) :
    ∀ (fuel : Nat) (t : Str) (level off : Nat), level < cfg.rules.length →
      ∀ c ∈ recursiveChunkFuel charTok cfg fuel t level off,
        c.tokenCount ≤ cfg.chunkSize := by
  intro fuel
  induction fuel with
  | zero => intro t level off _ c hc; simp [recursiveChunkFuel] at hc
  | succ fuel ih =>
    intro t level off hlevel c hc
    rw [recursiveChunkFuel] at hc
    by_cases ht : t = []
    · simp [ht] at hc
    · rw [if_neg ht] at hc
      rw [dif_neg (by omega)] at hc
      refine emitPieces_budget cfg.chunkSize _ _ off ?_ c hc
      intro p hp hpc o c' hc'
      by_cases hnext : level + 1 < cfg.rules.length
      · exact ih p.1 (level + 1) o hnext c' hc'
      · exfalso
        have hlev : level = cfg.rules.length - 1 := by omega
        have hrule : cfg.rules.get ⟨level, by omega⟩ = .token := by
          subst hlev
          exact rules_getLast_token cfg hlast (by omega)
        rw [hrule] at hp
        have hz := zip_map_self (estimateTokenCount charTok cfg.chunkSize)
          (splitText charTok cfg .token t) p (by exact hp)
        obtain ⟨hz1, hz2⟩ := hz
        have := token_estimate_le cfg hcs t p.1 hz2
        omega

end RecursiveChunker

namespace RecursiveChunker

theorem recursiveChunkFuel_nil (tok : Tokenizer) (cfg : RCfg)
    (fuel lv off : Nat) :
    recursiveChunkFuel tok cfg (fuel + 1) [] lv off = [] := by
  rw [recursiveChunkFuel]
  simp

theorem emitPieces_no_rec (cap : Nat) (r1 r2 : Str → Nat → List Chunk) :
    ∀ (pieces : List (Str × Nat)) (off : Nat),
      (∀ p ∈ pieces, p.2 ≤ cap) →
      emitPieces cap r1 pieces off = emitPieces cap r2 pieces off := by
  intro pieces
  induction pieces with
  | nil => intro off _; rfl
  | cons p rest ih =>
    intro off h
    obtain ⟨s, tc⟩ := p
    have htc : tc ≤ cap := h (s, tc) (List.mem_cons_self _ _)
    rw [emitPieces, emitPieces]
    rw [if_neg (by omega), if_neg (by omega)]
    rw [ih (off + s.length) (fun q hq => h q (List.mem_cons_of_mem _ hq))]

end RecursiveChunker

/-- Claim C1: with the (spec-modelled) character tokenizer, a positive chunk
size and a rules list whose last level is the terminal token-window level,
(1) every leaf chunk returned by `RecursiveChunker.chunk` satisfies
`tokenCount ≤ chunkSize`; (2) every piece produced by the token-window split
has estimated token count at most `chunkSize`; (3) the token level never
merges pieces — `mergeByRule` is the identity there; and (4) running the
chunker at the token level produces the same chunks whatever fuel remains —
so no piece is ever recursed into — and those chunks' texts are exactly the
token-window pieces. -/
theorem c1_token_budget (cfg : RCfg) (text : Str)
    (hcs : 1 ≤ cfg.chunkSize)
    (hlast : cfg.rules.getLast? = some RecLevel.token) :
    (∀ c ∈ RecursiveChunker.chunk charTok cfg text, c.tokenCount ≤ cfg.chunkSize) ∧
    (∀ t : Str, ∀ p ∈ RecursiveChunker.splitText charTok cfg .token t,
        RecursiveChunker.estimateTokenCount charTok cfg.chunkSize p ≤ cfg.chunkSize) ∧
    (∀ (splits : List Str) (counts : List Nat),
        RecursiveChunker.mergeByRule cfg.chunkSize .token splits counts =
          (splits, counts)) ∧
    (∀ (t : Str) (off fuel : Nat),
        RecursiveChunker.recursiveChunkFuel charTok cfg (fuel + 1) t
            (cfg.rules.length - 1) off =
          RecursiveChunker.recursiveChunkFuel charTok cfg 1 t
            (cfg.rules.length - 1) off ∧
        (RecursiveChunker.recursiveChunkFuel charTok cfg (fuel + 1) t
            (cfg.rules.length - 1) off).map Chunk.text =
          RecursiveChunker.splitText charTok cfg .token t) := by
  have hne : cfg.rules ≠ [] := by
    intro h
    rw [h] at hlast
    simp at hlast
  have hlen : 0 < cfg.rules.length := List.length_pos.2 hne
  refine ⟨?_, ?_, ?_, ?_⟩
  · intro c hc
    exact RecursiveChunker.recursiveChunkFuel_budget cfg hcs hlast
      (cfg.rules.length + 1) text 0 0 hlen c hc
  · intro t p hp
    exact RecursiveChunker.token_estimate_le cfg hcs t p hp
  · intro splits counts
    rfl
  · intro t off fuel
    by_cases ht : t = []
    · subst ht
      constructor
      · rw [RecursiveChunker.recursiveChunkFuel_nil]
        rw [show (1 : Nat) = 0 + 1 from rfl, RecursiveChunker.recursiveChunkFuel_nil]
      · rw [RecursiveChunker.recursiveChunkFuel_nil]
        rfl
    · have hrule : cfg.rules.get ⟨cfg.rules.length - 1, by omega⟩ = .token :=
        RecursiveChunker.rules_getLast_token cfg hlast (by omega)
      have hall : ∀ p ∈ (RecursiveChunker.splitText charTok cfg .token t).zip
          ((RecursiveChunker.splitText charTok cfg .token t).map
            (RecursiveChunker.estimateTokenCount charTok cfg.chunkSize)),
          p.2 ≤ cfg.chunkSize := by
        intro p hp
        obtain ⟨h1, h2⟩ := zip_map_self _ _ p hp
        rw [h1]
        exact RecursiveChunker.token_estimate_le cfg hcs t p.1 h2
      have hunf : ∀ f : Nat,
          RecursiveChunker.recursiveChunkFuel charTok cfg (f + 1) t
            (cfg.rules.length - 1) off =
          RecursiveChunker.emitPieces cfg.chunkSize
            (fun s o => RecursiveChunker.recursiveChunkFuel charTok cfg f s
              (cfg.rules.length - 1 + 1) o)
            ((RecursiveChunker.splitText charTok cfg .token t).zip
              ((RecursiveChunker.splitText charTok cfg .token t).map
                (RecursiveChunker.estimateTokenCount charTok cfg.chunkSize))) off := by
        intro f
        rw [RecursiveChunker.recursiveChunkFuel]
        rw [if_neg ht, dif_neg (by omega)]
        simp only [hrule]
        rfl
      have heq : RecursiveChunker.recursiveChunkFuel charTok cfg (fuel + 1) t
          (cfg.rules.length - 1) off =
          RecursiveChunker.recursiveChunkFuel charTok cfg 1 t
            (cfg.rules.length - 1) off := by
        rw [hunf fuel, show (1 : Nat) = 0 + 1 from rfl, hunf 0]
        exact RecursiveChunker.emitPieces_no_rec cfg.chunkSize _ _ _ off hall
      refine ⟨heq, ?_⟩
      rw [hunf fuel]
      obtain ⟨h1, _⟩ := RecursiveChunker.emitPieces_all_le cfg.chunkSize
        (fun s o => RecursiveChunker.recursiveChunkFuel charTok cfg fuel s
          (cfg.rules.length - 1 + 1) o) _ off hall
      rw [h1]
      exact List.map_fst_zip _ _ (by rw [List.length_map])

theorem c1_token_budget_witness :
    (1 ≤ rcfgW6.chunkSize ∧ rcfgW6.rules.getLast? = some RecLevel.token) ∧
    (∀ c ∈ RecursiveChunker.chunk charTok rcfgW6 textW6,
      c.tokenCount ≤ rcfgW6.chunkSize) :=
  ⟨⟨by decide, by rfl⟩, (c1_token_budget rcfgW6 textW6 (by decide) (by rfl)).1⟩
